import Mathlib

/-!
Verification of the core of `5G-planning-using-a-GA`: a shallow embedding of
`files/helper_funcs/generators_funcs.py`, `files/objs/cell.py`,
`files/objs/plan.py` and `files/crossover/crossover.py`, together with
spec-modelled versions of the external collaborators that are not part of
the provided sources (`net_funcs.distance`, `net_funcs.received_power`,
`helper.within`, the `User` class, the per-type constant table, and
`sa_crossover`).

Randomness (`np.random.shuffle`, `np.random.random`, `np.random.choice`,
`np.random.uniform`) is modelled by passing the drawn values / permutations
in as explicit inputs, so every function is a deterministic function of its
inputs plus the random draws.  Python runtime errors (IndexError on
`list.pop()` of an empty list, ValueError on `list.index` misses,
TypeError on `int < None` comparisons) are modelled with `Except PyError`.

Coordinates are integers: every coordinate the program produces is the
`round` of a uniform draw, and the configured separations are integer
meter counts.  Euclidean distance comparisons are represented on squared
distances: for a threshold `t`, `distance(p, q) < t` iff `0 < t` and
`distSq p q < t^2`, which is exact for Euclidean distance and keeps every
definition computable.  Scalars that the embedded code never computes
with — received powers, transmit powers, frequencies, probability draws —
are rationals.
-/

/-- Python runtime errors that the embedded code can raise. -/
inductive PyError where
  | indexError
  | valueError
  | typeError
  deriving DecidableEq, Repr

instance {ε α : Type} [DecidableEq ε] [DecidableEq α] : DecidableEq (Except ε α) :=
  fun a b =>
  match a, b with
  | .ok x, .ok y =>
    if h : x = y then .isTrue (by rw [h]) else .isFalse (by intro hc; cases hc; exact h rfl)
  | .error x, .error y =>
    if h : x = y then .isTrue (by rw [h]) else .isFalse (by intro hc; cases hc; exact h rfl)
  | .ok _, .error _ => .isFalse (by intro hc; cases hc)
  | .error _, .ok _ => .isFalse (by intro hc; cases hc)

/-- A candidate point `(x, y)`, as produced by `generate_candidate_points`
(both coordinates are rounded uniform draws, hence integers). -/
structure Point where
  x : ℤ
  y : ℤ
  deriving DecidableEq, Repr

/-- The closed enumeration of cell types used by `Cell._set_attributes`. -/
inductive CellType where
  | FixedMacro
  | Macro
  | Micro
  | Pico
  | Femto
  deriving DecidableEq, Repr

/-- Modelled from the spec: `files/consts/constants.py` is not under the
provided sources.  The per-type parameter table for the three fully
specified types (fixed-macro, macro, micro) is kept abstract as a record of
scalars; per §6 of the spec these types have all six parameters defined,
while the pico/femto literals are hard-coded in `cell.py` itself.  Radii
take part in distance comparisons and are integer meter counts; costs,
powers and frequencies are never computed with here and stay rational. -/
structure Consts where
  FIXED_MACRO_COST : ℚ
  MACRO_COST : ℚ
  MICRO_COST : ℚ
  FIXED_MACRO_MIN_USERS : ℕ
  MACRO_MIN_USERS : ℕ
  MICRO_MIN_USERS : ℕ
  FIXED_MACRO_MAX_USERS : ℕ
  MACRO_MAX_USERS : ℕ
  MICRO_MAX_USERS : ℕ
  FIXED_MACRO_RADIUS : ℤ
  MACRO_RADIUS : ℤ
  MICRO_RADIUS : ℤ
  FIXED_MACRO_POWER : ℚ
  MACRO_POWER : ℚ
  MICRO_POWER : ℚ
  FIXED_MACRO_FREQ : ℚ
  MACRO_FREQ : ℚ
  SMALL_CELL_FREQ : ℚ
  deriving Repr

/-- `objs/cell.py`: a cell's position, type and mutable runtime state.
Connected users are held as indices into the owning plan's user list
(object references in the source).  The type-derived parameters are
immutable and recovered from the cell type by the getter functions below,
mirroring `_set_attributes`. -/
structure Cell where
  xcoord : ℤ
  ycoord : ℤ
  cell_type : CellType
  connected_users : List ℕ
  state : Bool
  deriving DecidableEq, Repr

/-- `Cell.__init__(xcoord, ycoord, cell_type)`: fresh cell, no connected
users, state `True`. -/
def Cell.init (x y : ℤ) (t : CellType) : Cell :=
  ⟨x, y, t, [], true⟩

/-- `_set_attributes` / `get_cost`: the `cost` entry of the per-type table
(pico cost 5 and femto cost 1 are literals in `cell.py`). -/
def Cell.cost (C : Consts) (c : Cell) : ℚ :=
  match c.cell_type with
  | .FixedMacro => C.FIXED_MACRO_COST
  | .Macro => C.MACRO_COST
  | .Micro => C.MICRO_COST
  | .Pico => 5
  | .Femto => 1

/-- `get_min_users`: `None` (here `none`) for pico and femto. -/
def Cell.min_users (C : Consts) (c : Cell) : Option ℕ :=
  match c.cell_type with
  | .FixedMacro => some C.FIXED_MACRO_MIN_USERS
  | .Macro => some C.MACRO_MIN_USERS
  | .Micro => some C.MICRO_MIN_USERS
  | .Pico => none
  | .Femto => none

/-- `max_users` attribute: `None` for pico and femto. -/
def Cell.max_users (C : Consts) (c : Cell) : Option ℕ :=
  match c.cell_type with
  | .FixedMacro => some C.FIXED_MACRO_MAX_USERS
  | .Macro => some C.MACRO_MAX_USERS
  | .Micro => some C.MICRO_MAX_USERS
  | .Pico => none
  | .Femto => none

/-- `get_radius`: `None` for pico and femto. -/
def Cell.radius (C : Consts) (c : Cell) : Option ℤ :=
  match c.cell_type with
  | .FixedMacro => some C.FIXED_MACRO_RADIUS
  | .Macro => some C.MACRO_RADIUS
  | .Micro => some C.MICRO_RADIUS
  | .Pico => none
  | .Femto => none

/-- `get_power`: `None` for pico and femto. -/
def Cell.power (C : Consts) (c : Cell) : Option ℚ :=
  match c.cell_type with
  | .FixedMacro => some C.FIXED_MACRO_POWER
  | .Macro => some C.MACRO_POWER
  | .Micro => some C.MICRO_POWER
  | .Pico => none
  | .Femto => none

/-- `get_frequency`: micro cells use `SMALL_CELL_FREQ`; `None` for pico
and femto. -/
def Cell.frequency (C : Consts) (c : Cell) : Option ℚ :=
  match c.cell_type with
  | .FixedMacro => some C.FIXED_MACRO_FREQ
  | .Macro => some C.MACRO_FREQ
  | .Micro => some C.SMALL_CELL_FREQ
  | .Pico => none
  | .Femto => none

/-- Modelled from the spec: `objs/user.py` is not under the provided
sources.  §3 of the spec: a user is a position plus transient scratch
state, an ordered list of close candidate cells and an optional serving
cell reference.  Cells are referred to by their index in the plan's
`get_cells("all")` order. -/
structure User where
  xcoord : ℤ
  ycoord : ℤ
  close_bss : List ℕ
  connected_bs : Option ℕ
  deriving DecidableEq, Repr

/-- A user as freshly constructed: scratch state empty, unconnected. -/
def User.init (x y : ℤ) : User :=
  ⟨x, y, [], none⟩

/-- Modelled from the spec: `network/net_funcs.distance(x1, y1, x2, y2)`
is not under the provided sources; §6 gives its contract as the Euclidean
planar distance between `(x1, y1)` and `(x2, y2)`.  We carry the squared
distance so that everything stays integral and computable. -/
def dist_sq (x1 y1 x2 y2 : ℤ) : ℤ :=
  (x1 - x2) ^ 2 + (y1 - y2) ^ 2

/-- `distance(x1, y1, x2, y2) < t`, expressed on the squared distance:
since the Euclidean distance is nonnegative, this holds iff `0 < t` and
`dist_sq < t^2`. -/
def dist_lt (x1 y1 x2 y2 t : ℤ) : Bool :=
  decide (0 < t) && decide (dist_sq x1 y1 x2 y2 < t ^ 2)

/-- Modelled from the spec: `helper_funcs/helper.within(i, j, step, x, y)`
is not under the provided sources; §4.1 gives closed-open bounds
`[i, i+step) × [j, j+step)`. -/
def within (i j step x y : ℤ) : Bool :=
  decide (i ≤ x) && decide (x < i + step) && decide (j ≤ y) && decide (y < j + step)

/-- Python `list.pop(list.index(p))`: remove the first occurrence of `p`,
`none` when `p` is absent (a `ValueError` in the source). -/
def remove_first (l : List Point) (p : Point) : Option (List Point) :=
  match l with
  | [] => none
  | q :: qs => if q = p then some qs else (remove_first qs p).map (q :: ·)

/-- The scan loop of `generate_cells` (`generators_funcs.py` lines 34-47):
walk the shuffled copy, accept a point iff the (argument-swapped) distance
check against every already-accepted cell passes, remove accepted points
from the caller-visible list, and stop once the accepted count reaches
`num`.  Note the source's call
`distance(cp[0], c.get_xcoord(), cp[1], c.get_ycoord())`, i.e. the four
arguments are `(cp.x, c.x, cp.y, c.y)` in the oracle's `(x1, y1, x2, y2)`
slots. -/
def place_loop (sep : ℤ) (t : CellType) (num : ℕ) :
    List Point → List Cell → List Point → Except PyError (List Cell × List Point)
  | [], cells, res => .ok (cells, res)
  | cp :: rest, cells, res =>
    if cells.any (fun c => dist_lt cp.x c.xcoord cp.y c.ycoord sep) then
      -- some accepted cell is too close: is_well_positioned = False
      if num ≤ cells.length then .ok (cells, res)
      else place_loop sep t num rest cells res
    else
      match remove_first res cp with
      | none => .error .valueError
      | some res' =>
        let cells' := cells ++ [Cell.init cp.x cp.y t]
        if num ≤ cells'.length then .ok (cells', res')
        else place_loop sep t num rest cells' res'

/-- `generate_cells(candidate_points_list, type_of_cell,
distance_between_cells, num_of_cells)`.  The initial `np.random.shuffle`
is modelled by taking the list in its post-shuffle order.  `pop()` of the
seed from the empty list is an IndexError.  Returns the generated cells
together with the caller-visible residual point list. -/
def generate_cells (candidate_points_list : List Point) (type_of_cell : CellType)
    (distance_between_cells : ℤ) (num_of_cells : ℕ) :
    Except PyError (List Cell × List Point) :=
  match candidate_points_list.getLast? with
  | none => .error .indexError
  | some seed =>
      place_loop distance_between_cells type_of_cell num_of_cells
        candidate_points_list
        [Cell.init seed.x seed.y type_of_cell]
        candidate_points_list.dropLast

/-- `range(0, area, step)` for `step > 0`. -/
def grid_range (area step : ℕ) : List ℕ :=
  (List.range ((area + step - 1) / step)).map (· * step)

/-- `generate_candidate_points(area, step, users_list, users_threshold)`.
The two (rounded) `np.random.uniform` draws for grid cell `(i, j)` are
supplied by the oracle `draw`; `range` with step 0 raises in Python. -/
def generate_candidate_points (area step : ℕ) (users_list : List User)
    (users_threshold : ℕ) (draw : ℕ → ℕ → ℤ × ℤ) : Except PyError (List Point) :=
  if step = 0 then .error .valueError
  else .ok <|
    (grid_range area step).flatMap fun i =>
      (grid_range area step).flatMap fun j =>
        let users_num :=
          (users_list.filter fun u =>
            within (i : ℤ) (j : ℤ) (step : ℤ) u.xcoord u.ycoord).length
        if users_threshold ≤ users_num then
          [⟨(draw i j).1, (draw i j).2⟩]
        else []

/-- `objs/plan.py`: a plan owns its users, candidate points and the five
per-type cell groups carved out of a flat cell list by `Plan.__init__`.
The derived scalars are `None` until `operate`. -/
structure Plan where
  users : List User
  candidate_points : List Point
  fixed_macro_cells : List Cell
  macro_cells : List Cell
  micro_cells : List Cell
  pico_cells : List Cell
  femto_cells : List Cell
  cost : Option ℚ
  fitness : Option ℚ
  connected_users : Option ℕ
  deriving DecidableEq, Repr

/-- `Plan.__init__(cell_list, users, candidate_points,
num_fixed_macro_cells, num_macro_cells, num_micro_cells=None,
num_pico_cells=None, num_femto_cells=None)`: consecutive (clamped) slices
of `cell_list`; a `None` count yields an empty group. -/
def Plan.init (cell_list : List Cell) (users : List User)
    (candidate_points : List Point) (num_fixed_macro_cells num_macro_cells : ℕ)
    (num_micro_cells num_pico_cells num_femto_cells : Option ℕ := none) : Plan :=
  let fm := (cell_list.take num_fixed_macro_cells, cell_list.drop num_fixed_macro_cells)
  let ma := ((fm.2).take num_macro_cells, (fm.2).drop num_macro_cells)
  let mi := match num_micro_cells with
    | none => (([] : List Cell), ma.2)
    | some k => ((ma.2).take k, (ma.2).drop k)
  let pi := match num_pico_cells with
    | none => (([] : List Cell), mi.2)
    | some k => ((mi.2).take k, (mi.2).drop k)
  let fe := match num_femto_cells with
    | none => ([] : List Cell)
    | some k => (pi.2).take k
  { users := users
    candidate_points := candidate_points
    fixed_macro_cells := fm.1
    macro_cells := ma.1
    micro_cells := mi.1
    pico_cells := pi.1
    femto_cells := fe
    cost := none
    fitness := none
    connected_users := none }

/-- `get_cells("all")`: concatenation of the five groups in their fixed
order. -/
def Plan.all_cells (p : Plan) : List Cell :=
  p.fixed_macro_cells ++ p.macro_cells ++ p.micro_cells ++ p.pico_cells ++ p.femto_cells

/-- `get_cells("non_fixed")`: every group except the fixed-macro one. -/
def Plan.non_fixed_cells (p : Plan) : List Cell :=
  p.macro_cells ++ p.micro_cells ++ p.pico_cells ++ p.femto_cells

/-- The group a cell-type name selects (used via
`get_num_cells(cell.get_cell_type())` in `connect_users`). -/
def Plan.cells_of_type (p : Plan) (t : CellType) : List Cell :=
  match t with
  | .FixedMacro => p.fixed_macro_cells
  | .Macro => p.macro_cells
  | .Micro => p.micro_cells
  | .Pico => p.pico_cells
  | .Femto => p.femto_cells

/-- `Plan.get_cells(cells_type)`: string dispatch over the group names;
an unrecognized string leaves `cells` unbound in the source
(UnboundLocalError), modelled by `none`. -/
def Plan.get_cells (p : Plan) (cells_type : String) : Option (List Cell) :=
  if cells_type = "all" then some p.all_cells
  else if cells_type = "non_fixed" then some p.non_fixed_cells
  else if cells_type = "fixed_macro" then some p.fixed_macro_cells
  else if cells_type = "macro" then some p.macro_cells
  else if cells_type = "micro" then some p.micro_cells
  else if cells_type = "pico" then some p.pico_cells
  else if cells_type = "femto" then some p.femto_cells
  else none

/-- `Plan.get_num_cells(cell_type)` restricted to the enumerated type
names: the length of that type's group (whether its cells are active or
not). -/
def Plan.num_cells_type (p : Plan) (t : CellType) : ℕ :=
  (p.cells_of_type t).length

/-- The cell at flat index `i` of the `get_cells("all")` order. -/
def Plan.cell_at (p : Plan) (i : ℕ) : Option Cell :=
  p.all_cells[i]?

/-- `generate_initial_population`, one individual (loop body, lines
110-130 of `generators_funcs.py`): generate macro then micro cells from
the (destructively shared) candidate point list and build the plan with
the positional call `Plan(macro_cells + micro_cells, users, cp,
num_macro, num_micro)` — so `num_macro` lands in the
`num_fixed_macro_cells` slot and `num_micro` in the `num_macro_cells`
slot.  `shA`/`shB` give the post-shuffle orders seen by the two
`generate_cells` calls. -/
def gen_pop_plan (candidate_points : List Point) (users : List User)
    ( num_macro : ℕ) ( distance_macro : ℤ) (num_micro : ℕ) (distance_micro : ℤ)
    (shA shB : List Point → List Point) : Except PyError Plan := do
  let mac ← generate_cells (shA candidate_points) .Macro distance_macro num_macro
  let mic ← generate_cells (shB mac.2) .Micro distance_micro num_micro
  .ok (Plan.init (mac.1 ++ mic.1) users mic.2 num_macro num_micro)

/-- `generate_initial_population(num_of_plans, candidate_points, users,
num_macro, distance_macro, num_micro, distance_micro)` with the pico and
femto arguments left at their `None` defaults, as in the source.  The
shuffle oracle `sh` supplies the post-shuffle order for every shuffle the
run performs (`2 * k` and `2 * k + 1` for individual `k`). -/
def generate_initial_population (num_of_plans : ℕ) (candidate_points : List Point)
    (users : List User) ( num_macro : ℕ) ( distance_macro : ℤ) (num_micro : ℕ)
    (distance_micro : ℤ) (sh : ℕ → List Point → List Point) :
    Except PyError (List Plan) :=
  go num_of_plans 0
where
  go : ℕ → ℕ → Except PyError (List Plan)
  | 0, _ => .ok []
  | n + 1, k => do
    let plan ← gen_pop_plan candidate_points users num_macro distance_macro
      num_micro distance_micro (sh (2 * k)) (sh (2 * k + 1))
    let rest ← go n (k + 1)
    .ok (plan :: rest)

/-! ### Length bound for the placement loop -/

theorem place_loop_length (sep : ℤ) (t : CellType) (num : ℕ) :
    ∀ (L : List Point) (cells : List Cell) (res : List Point)
      (cs : List Cell) (rs : List Point),
      place_loop sep t num L cells res = .ok (cs, rs) →
      cs.length ≤ max (cells.length + 1) num ∧
        (cells.length < num → cs.length ≤ num) := by
  intro L
  induction L with
  | nil =>
    intro cells res cs rs h
    simp only [place_loop] at h
    cases h
    exact ⟨by omega, fun h => by omega⟩
  | cons cp rest ih =>
    intro cells res cs rs h
    simp only [place_loop] at h
    by_cases hc : cells.any (fun c => dist_lt cp.x c.xcoord cp.y c.ycoord sep) = true
    · rw [if_pos hc] at h
      by_cases hn : num ≤ cells.length
      · rw [if_pos hn] at h
        cases h
        exact ⟨by omega, fun h => by omega⟩
      · rw [if_neg hn] at h
        exact ih cells res cs rs h
    · rw [if_neg hc] at h
      cases hrem : remove_first res cp with
      | none => rw [hrem] at h; exact absurd h (by simp)
      | some res' =>
        rw [hrem] at h
        simp only at h
        by_cases hn : num ≤ (cells ++ [Cell.init cp.x cp.y t]).length
        · rw [if_pos hn] at h
          cases h
          simp only [List.length_append, List.length_singleton]
          exact ⟨by omega, fun hlt => by omega⟩
        · rw [if_neg hn] at h
          have hb := ih (cells ++ [Cell.init cp.x cp.y t]) res' cs rs h
          have hlt : (cells ++ [Cell.init cp.x cp.y t]).length < num := Nat.lt_of_not_le hn
          have hnum := hb.2 hlt
          simp only [List.length_append, List.length_singleton] at hlt
          exact ⟨by omega, fun _ => hnum⟩

/-! ### C10 -/

/-- C10: `generate_cells` is only defined for a non-empty candidate-point
list: on an empty list the unconditional seed `pop()` fails with an
IndexError before any separation or count check, for every cell type,
separation and requested count — including a requested count of 0. -/
theorem C10_generate_cells_empty_list_fails (t : CellType) (d : ℤ) (n : ℕ) :
    generate_cells [] t d n = .error .indexError := rfl

/-! ### C7 -/

/-- C7 counterexample: the claim says every output of `generate_cells` has
length at most the requested count; at the concrete input
`([(0,0)], macro, 5, 0)` the code returns one cell although zero were
requested, because the seed cell is appended before any count check. -/
theorem C7_counterexample :
    ¬ (∀ cells rest, generate_cells [⟨0, 0⟩] CellType.Macro 5 0 = .ok (cells, rest) →
        cells.length ≤ 0) := by
  intro h
  exact absurd (h [Cell.init 0 0 .Macro] [] (by decide)) (by decide)

/-- C7 amended: for every call to `generate_cells` with target count
`num_of_cells`, a successfully returned cell list has length at most
`max 2 num_of_cells`; when `num_of_cells ≥ 2` it has length at most
`num_of_cells` as the claim states.  (For requested counts 0 and 1 the
unchecked seed append plus the end-of-iteration break can yield up to 2
cells.) -/
theorem C7_generate_cells_length_bound (l : List Point) (t : CellType) (sep : ℤ)
    (num : ℕ) (cells : List Cell) (rest : List Point)
    (h : generate_cells l t sep num = .ok (cells, rest)) :
    cells.length ≤ max 2 num ∧ (2 ≤ num → cells.length ≤ num) := by
  unfold generate_cells at h
  cases hl : l.getLast? with
  | none => rw [hl] at h; exact absurd h (by simp)
  | some seed =>
    rw [hl] at h
    have hb := place_loop_length sep t num l
      [Cell.init seed.x seed.y t] l.dropLast cells rest h
    simp only [List.length_singleton] at hb
    constructor
    · rcases Nat.le_total 2 num with hn | hn
      · have := hb.2 (by omega)
        omega
      · have := hb.1
        omega
    · intro h2
      exact hb.2 (by omega)

/-- Witness for C7: the amended bound evaluated at a concrete call with
requested count 2, which returns a single cell. -/
theorem C7_generate_cells_length_bound_witness :
    ([Cell.init 0 0 .Macro] : List Cell).length ≤ max 2 2 ∧
      (2 ≤ 2 → ([Cell.init 0 0 .Macro] : List Cell).length ≤ 2) :=
  C7_generate_cells_length_bound [⟨0, 0⟩] CellType.Macro 5 2
    [Cell.init 0 0 .Macro] [] (by decide)

/-! ### C2 -/

/-- C2: the claim says every pair of distinct cells accepted by
`generate_cells` is at planar distance at least the minimum separation
under the oracle contract `distance(x1, y1, x2, y2)`.  At the shuffled
input `[(0,5), (0,6)]` with separation 3 and count 2, the code accepts
both points — its separation test passes `(cp.x, cell.x, cp.y, cell.y)`
into the `(x1, y1, x2, y2)` slots — yet the true planar distance between
the two returned cells is 1 < 3 (`dist_lt` of their positions at
threshold 3 holds). -/
theorem C2_bug_separation_violated :
    generate_cells [⟨0, 5⟩, ⟨0, 6⟩] CellType.Macro 3 2 =
      .ok ([Cell.init 0 6 .Macro, Cell.init 0 5 .Macro], []) ∧
    dist_lt (Cell.init 0 6 .Macro).xcoord (Cell.init 0 6 .Macro).ycoord
      (Cell.init 0 5 .Macro).xcoord (Cell.init 0 5 .Macro).ycoord 3 = true := by
  exact ⟨by decide, by decide⟩

/-! ### C3 -/

/-- C3: with area 100, step 50, one user at (10,10) and threshold 1, the
candidate generator does return exactly one point inside the grid cell
(0,0)-(50,50) (first conjunct, shown at the legitimate draw (0,50)); but
the claim that `generate_cells` on that single-point list with count 1
and separation 10 returns exactly one macro cell fails: the
argument-swapped separation test lets the seed point be re-accepted from
the shuffled copy, and the subsequent `list.index` lookup on the
now-empty caller list raises a ValueError. -/
theorem C3_bug_end_to_end_example :
    generate_candidate_points 100 50 [User.init 10 10] 1 (fun _ _ => (0, 50)) =
      .ok [⟨0, 50⟩] ∧
    generate_cells [⟨0, 50⟩] CellType.Macro 10 1 = .error .valueError := by
  exact ⟨by decide, by decide⟩

/-! ### C1 -/

/-- C1: the claim says each per-type group of a Plan built by the
population initializer matches the types of its cells.  At the concrete
run below (two candidate points, one macro and one micro cell requested,
identity shuffles) the produced plan's fixed-macro group holds the
generated macro-type cell, its macro group holds the generated micro-type
cell, and its micro group is empty — because
`generate_initial_population` passes `(num_macro, num_micro)` into the
`(num_fixed_macro_cells, num_macro_cells)` parameters of `Plan.__init__`
and supplies no fixed-macro infrastructure at all. -/
theorem C1_bug_population_groups_mismatched :
    (generate_initial_population 1 [⟨0, 0⟩, ⟨0, 1⟩] [] 1 5 1 5 (fun _ l => l)).map
        (fun pool => pool.map fun p =>
          ((p.get_cells "fixed_macro").map (List.map Cell.cell_type),
           (p.get_cells "macro").map (List.map Cell.cell_type),
           (p.get_cells "micro").map (List.map Cell.cell_type))) =
      .ok [(some [CellType.Macro], some [CellType.Micro], some [])] := by
  decide

/-! ### The user-association step (`Plan.connect_users`)

`net_funcs.received_power(power, num_bs, dist, frequency, 0, 0)` is not
under the provided sources and §6 of the spec keeps its model abstract, so
it enters as an arbitrary oracle `rp : ℚ → ℕ → ℤ → ℚ → ℚ` of the transmit
power, the cell count and the frequency.  Its third argument is the
squared distance: precomposing an arbitrary function with the square root
expresses every function of the (nonnegative) distance, and the two
trailing literal-`0` arguments of the source call are absorbed into the
oracle. -/

/-- Writes cell `c` at flat index `i` of the `get_cells("all")` order,
into whichever per-type group the index falls (object mutation through a
shared reference in the source). -/
def Plan.set_cell_at (p : Plan) (i : ℕ) (c : Cell) : Plan :=
  if i < p.fixed_macro_cells.length then
    {p with fixed_macro_cells := p.fixed_macro_cells.set i c}
  else if i < p.fixed_macro_cells.length + p.macro_cells.length then
    {p with macro_cells := p.macro_cells.set (i - p.fixed_macro_cells.length) c}
  else if i < p.fixed_macro_cells.length + p.macro_cells.length + p.micro_cells.length then
    {p with micro_cells := p.micro_cells.set (i - p.fixed_macro_cells.length - p.macro_cells.length) c}
  else if i < p.fixed_macro_cells.length + p.macro_cells.length + p.micro_cells.length + p.pico_cells.length then
    {p with pico_cells := p.pico_cells.set (i - p.fixed_macro_cells.length - p.macro_cells.length - p.micro_cells.length) c}
  else
    {p with femto_cells := p.femto_cells.set (i - p.fixed_macro_cells.length - p.macro_cells.length - p.micro_cells.length - p.pico_cells.length) c}

/-- The inner cell scan of `connect_users` (`plan.py` lines 127-133) for
one user: walk the indexed cells in `get_cells("all")` order and append
index `i` to the close list iff the user lies strictly within the cell's
radius and `is_available()` holds (`connected < max_users`).  A `None`
radius makes the `<` comparison raise; a `None` `max_users` makes
`is_available` raise (only reached when the radius test passed). -/
def close_scan (C : Consts) (u : User) :
    List (ℕ × Cell) → List ℕ → Except PyError (List ℕ)
  | [], acc => .ok acc
  | ic :: rest, acc =>
    match (ic.2).radius C with
    | none => .error .typeError
    | some r =>
      if dist_lt u.xcoord u.ycoord (ic.2).xcoord (ic.2).ycoord r then
        match (ic.2).max_users C with
        | none => .error .typeError
        | some m =>
          if (ic.2).connected_users.length < m then close_scan C u rest (acc ++ [ic.1])
          else close_scan C u rest acc
      else close_scan C u rest acc

/-- The received power the tournament computes for candidate cell `c` of
user `u` (`plan.py` lines 139-158): `received_power(cell power,
get_num_cells(cell type), distance to user, cell frequency, 0, 0)`, with
the cell-count function abstracted as `numf` (instantiated with
`num_cells_type` for the source and `num_active_cells_type` for the
spec-worded variant). -/
def cell_power (C : Consts) (rp : ℚ → ℕ → ℤ → ℚ → ℚ) (numf : Plan → CellType → ℕ)
    (p : Plan) (u : User) (c : Cell) : Except PyError ℚ :=
  match c.power C, c.frequency C with
  | some pw, some fr =>
      .ok (rp pw (numf p c.cell_type) (dist_sq c.xcoord c.ycoord u.xcoord u.ycoord) fr)
  | _, _ => .error .typeError

/-- The pairwise tournament of `connect_users` (`plan.py` lines 137-161):
starting from the first close cell as `desired`, replace it by a tested
cell only when the tested cell's received power is strictly greater. -/
def pick_desired (C : Consts) (rp : ℚ → ℕ → ℤ → ℚ → ℚ)
    (numf : Plan → CellType → ℕ) (p : Plan) (u : User) :
    ℕ → List ℕ → Except PyError ℕ
  | d, [] => .ok d
  | d, ti :: rest =>
    match p.cell_at d, p.cell_at ti with
    | some cd, some ct =>
      match cell_power C rp numf p u cd, cell_power C rp numf p u ct with
      | .ok power1, .ok power2 =>
        if power1 < power2 then pick_desired C rp numf p u ti rest
        else pick_desired C rp numf p u d rest
      | .error e, _ => .error e
      | _, .error e => .error e
    | _, _ => .error .indexError

/-- The body of `connect_users` for one user: reset the close list, scan
every cell, and if the close list is non-empty run the tournament, set
the user's serving reference and register the user on the winning cell. -/
def connect_one (C : Consts) (rp : ℚ → ℕ → ℤ → ℚ → ℚ)
    (numf : Plan → CellType → ℕ) (p : Plan) (uidx : ℕ) : Except PyError Plan :=
  match p.users[uidx]? with
  | none => .ok p
  | some u0 =>
    let u1 : User := {u0 with close_bss := []}
    match close_scan C u1 p.all_cells.enum [] with
    | .error e => .error e
    | .ok close =>
      let u2 : User := {u1 with close_bss := close}
      match close with
      | [] => .ok {p with users := p.users.set uidx u2}
      | d :: rest =>
        match pick_desired C rp numf p u2 d rest with
        | .error e => .error e
        | .ok di =>
          let u3 : User := {u2 with connected_bs := some di}
          let p1 : Plan := {p with users := p.users.set uidx u3}
          match p1.cell_at di with
          | none => .error .indexError
          | some c =>
            .ok (p1.set_cell_at di {c with connected_users := c.connected_users ++ [uidx]})

/-- The outer user loop of `connect_users`. -/
def users_loop (C : Consts) (rp : ℚ → ℕ → ℤ → ℚ → ℚ)
    (numf : Plan → CellType → ℕ) : List ℕ → Plan → Except PyError Plan
  | [], p => .ok p
  | i :: rest, p =>
    match connect_one C rp numf p i with
    | .error e => .error e
    | .ok p' => users_loop C rp numf rest p'

/-- `Plan.connect_users` (`plan.py` lines 123-163): associate every user
in order, with the source's cell count `get_num_cells(type)` — the length
of that type's group, active or not. -/
def Plan.connect_users (C : Consts) (rp : ℚ → ℕ → ℤ → ℚ → ℚ) (p : Plan) :
    Except PyError Plan :=
  users_loop C rp Plan.num_cells_type (List.range p.users.length) p

/-- The number of active cells in a type's group. -/
def Plan.num_active_cells_type (p : Plan) (t : CellType) : ℕ :=
  ((p.cells_of_type t).filter (fun c => c.state)).length

/-- The association step as the spec's words describe it (the reference
definition for claim C8): identical to `connect_users` except that the
received-power cell count is the number of active cells of the
candidate's type. -/
def Plan.connect_users_active (C : Consts) (rp : ℚ → ℕ → ℤ → ℚ → ℚ) (p : Plan) :
    Except PyError Plan :=
  users_loop C rp Plan.num_active_cells_type (List.range p.users.length) p

/-! ### Structural lemmas about plan updates -/

theorem Plan.set_cell_at_users (p : Plan) (i : ℕ) (c : Cell) :
    (p.set_cell_at i c).users = p.users := by
  unfold Plan.set_cell_at
  split_ifs <;> rfl

theorem Plan.all_cells_set_cell_at (p : Plan) (i : ℕ) (c : Cell) :
    (p.set_cell_at i c).all_cells = p.all_cells.set i c := by
  unfold Plan.set_cell_at Plan.all_cells
  split_ifs with h1 h2 h3 h4 <;>
    simp only [List.set_append, List.length_append] <;>
    split_ifs <;>
    first
      | omega
      | (simp only [Nat.sub_sub, Nat.add_assoc])

theorem Plan.num_cells_type_set_cell_at (p : Plan) (i : ℕ) (c : Cell) (t : CellType) :
    (p.set_cell_at i c).num_cells_type t = p.num_cells_type t := by
  unfold Plan.set_cell_at Plan.num_cells_type Plan.cells_of_type
  split_ifs <;> cases t <;> simp

theorem Plan.num_cells_type_users_update (p : Plan) (us : List User) (t : CellType) :
    Plan.num_cells_type {p with users := us} t = p.num_cells_type t := by
  cases t <;> rfl

theorem Plan.cell_at_users_update (p : Plan) (us : List User) (i : ℕ) :
    Plan.cell_at {p with users := us} i = p.cell_at i := rfl

theorem Plan.all_cells_users_update (p : Plan) (us : List User) :
    Plan.all_cells {p with users := us} = p.all_cells := rfl

theorem Plan.cell_at_set_cell_at_ne (p : Plan) (i j : ℕ) (c : Cell) (h : i ≠ j) :
    (p.set_cell_at i c).cell_at j = p.cell_at j := by
  unfold Plan.cell_at
  rw [Plan.all_cells_set_cell_at, List.getElem?_set_ne h]

theorem Plan.cell_at_set_cell_at_self (p : Plan) (i : ℕ) (c : Cell)
    (h : i < p.all_cells.length) :
    (p.set_cell_at i c).cell_at i = some c := by
  unfold Plan.cell_at
  rw [Plan.all_cells_set_cell_at, List.getElem?_set_self h]

/-! ### Characterizing the close-cell scan -/

/-- The predicate `close_scan` effectively tests for one cell, when it
does not raise: defined radius, strictly within radius, defined capacity
ceiling with spare capacity. -/
def cell_close_pred (C : Consts) (u : User) (c : Cell) : Bool :=
  match c.radius C with
  | none => false
  | some r =>
    if dist_lt u.xcoord u.ycoord c.xcoord c.ycoord r then
      match c.max_users C with
      | none => false
      | some m => decide (c.connected_users.length < m)
    else false

theorem cell_close_pred_spec (C : Consts) (u : User) (c : Cell)
    (h : cell_close_pred C u c = true) :
    ∃ r m, c.radius C = some r ∧ dist_lt u.xcoord u.ycoord c.xcoord c.ycoord r = true ∧
      c.max_users C = some m ∧ c.connected_users.length < m := by
  unfold cell_close_pred at h
  split at h
  · exact absurd h (by simp)
  · rename_i r hr
    split at h
    · rename_i hd
      split at h
      · exact absurd h (by simp)
      · rename_i m hm
        exact ⟨r, m, hr, hd, hm, by simpa using h⟩
    · exact absurd h (by simp)

theorem close_scan_ok (C : Consts) (u : User) :
    ∀ (L : List (ℕ × Cell)) (acc res : List ℕ),
      close_scan C u L acc = .ok res →
      res = acc ++ (L.filter (fun ic => cell_close_pred C u ic.2)).map Prod.fst := by
  intro L
  induction L with
  | nil =>
    intro acc res h
    simp only [close_scan] at h
    cases h
    simp
  | cons ic rest ih =>
    intro acc res h
    simp only [close_scan] at h
    split at h
    · exact absurd h (by simp)
    · rename_i r hr
      split at h
      · rename_i hd
        split at h
        · exact absurd h (by simp)
        · rename_i m hm
          split at h
          · rename_i hlen
            have := ih (acc ++ [ic.1]) res h
            rw [this]
            have hpred : cell_close_pred C u ic.2 = true := by
              simp [cell_close_pred, hr, hd, hm, hlen]
            simp [hpred]
          · rename_i hlen
            have := ih acc res h
            rw [this]
            have hpred : cell_close_pred C u ic.2 = false := by
              simp [cell_close_pred, hr, hd, hm, hlen]
            simp [hpred]
      · rename_i hd
        have := ih acc res h
        rw [this]
        have hpred : cell_close_pred C u ic.2 = false := by
          simp [cell_close_pred, hr, hd]
        simp [hpred]

/-! ### Characterizing the tournament -/

/-- The received power of the candidate at flat index `j` for user `u`,
when the cell exists and its parameters are defined. -/
def power_of (C : Consts) (rp : ℚ → ℕ → ℤ → ℚ → ℚ) (numf : Plan → CellType → ℕ)
    (p : Plan) (u : User) (j : ℕ) : Option ℚ :=
  (p.cell_at j).bind fun c =>
    match c.power C, c.frequency C with
    | some pw, some fr =>
        some (rp pw (numf p c.cell_type) (dist_sq c.xcoord c.ycoord u.xcoord u.ycoord) fr)
    | _, _ => none

theorem power_of_eq_of_cell_power (C : Consts) (rp : ℚ → ℕ → ℤ → ℚ → ℚ)
    (numf : Plan → CellType → ℕ) (p : Plan) (u : User) (j : ℕ) (c : Cell) (q : ℚ)
    (hc : p.cell_at j = some c) (hq : cell_power C rp numf p u c = .ok q) :
    power_of C rp numf p u j = some q := by
  unfold power_of
  rw [hc]
  unfold cell_power at hq
  split at hq
  · cases hq
    rename_i pw fr hpw hfr
    simp [hpw, hfr]
  · exact absurd hq (by simp)

/-- The pure fold the tournament computes: keep the current desired cell
unless the tested cell's value is strictly greater. -/
def tournament (f : ℕ → ℚ) (d : ℕ) (l : List ℕ) : ℕ :=
  l.foldl (fun d t => if f d < f t then t else d) d

theorem pick_desired_eq_tournament (C : Consts) (rp : ℚ → ℕ → ℤ → ℚ → ℚ)
    (numf : Plan → CellType → ℕ) (p : Plan) (u : User) :
    ∀ (l : List ℕ) (d di : ℕ),
      pick_desired C rp numf p u d l = .ok di →
      di = tournament (fun j => (power_of C rp numf p u j).getD 0) d l := by
  intro l
  induction l with
  | nil =>
    intro d di h
    simp only [pick_desired] at h
    cases h
    rfl
  | cons ti rest ih =>
    intro d di h
    simp only [pick_desired] at h
    split at h
    · rename_i cd ct hcd hct
      split at h
      · rename_i p1 p2 hp1 hp2
        have hP1 := power_of_eq_of_cell_power C rp numf p u d cd p1 hcd hp1
        have hP2 := power_of_eq_of_cell_power C rp numf p u ti ct p2 hct hp2
        have hf1 : (power_of C rp numf p u d).getD 0 = p1 := by rw [hP1]; rfl
        have hf2 : (power_of C rp numf p u ti).getD 0 = p2 := by rw [hP2]; rfl
        unfold tournament
        rw [List.foldl_cons]
        simp only [hf1, hf2]
        by_cases hlt : p1 < p2
        · rw [if_pos hlt]
          rw [if_pos hlt] at h
          exact ih ti di h
        · rw [if_neg hlt]
          rw [if_neg hlt] at h
          exact ih d di h
      · exact absurd h (by simp)
      · exact absurd h (by simp)
    · exact absurd h (by simp)

theorem tournament_first_max (f : ℕ → ℚ) :
    ∀ (l : List ℕ) (d : ℕ),
      tournament f d l ∈ d :: l ∧
      (∀ x ∈ d :: l, f x ≤ f (tournament f d l)) ∧
      ∃ k : ℕ, (d :: l)[k]? = some (tournament f d l) ∧
        ∀ (i : ℕ) (x : ℕ), i < k → (d :: l)[i]? = some x → f x < f (tournament f d l) := by
  intro l
  induction l with
  | nil =>
    intro d
    refine ⟨by simp [tournament], ?_, 0, by simp [tournament], by omega⟩
    intro x hx
    simp at hx
    simp [hx, tournament]
  | cons t rest ih =>
    intro d
    have hstep : tournament f d (t :: rest) = tournament f (if f d < f t then t else d) rest :=
      rfl
    by_cases hdt : f d < f t
    · rw [if_pos hdt] at hstep
      obtain ⟨hmem, hmax, k', hk', hstrict⟩ := ih t
      rw [hstep]
      refine ⟨List.mem_cons_of_mem _ hmem, ?_, k' + 1, by simpa using hk', ?_⟩
      · intro x hx
        rcases List.mem_cons.mp hx with hx | hx
        · subst hx
          exact le_of_lt (lt_of_lt_of_le hdt (hmax t (List.mem_cons_self _ _)))
        · exact hmax x hx
      · intro i x hi hx
        cases i with
        | zero =>
          simp at hx
          subst hx
          exact lt_of_lt_of_le hdt (hmax t (List.mem_cons_self _ _))
        | succ i' =>
          simp only [List.getElem?_cons_succ] at hx
          exact hstrict i' x (by omega) hx
    · rw [if_neg hdt] at hstep
      obtain ⟨hmem, hmax, k', hk', hstrict⟩ := ih d
      rw [hstep]
      push_neg at hdt
      refine ⟨?_, ?_, ?_⟩
      · rcases List.mem_cons.mp hmem with hm | hm
        · rw [hm]; exact List.mem_cons_self _ _
        · exact List.mem_cons_of_mem _ (List.mem_cons_of_mem _ hm)
      · intro x hx
        rcases List.mem_cons.mp hx with hx | hx
        · subst hx
          exact hmax x (List.mem_cons_self _ _)
        · rcases List.mem_cons.mp hx with hx | hx
          · subst hx
            exact le_trans hdt (hmax d (List.mem_cons_self _ _))
          · exact hmax x (List.mem_cons_of_mem _ hx)
      · cases k' with
        | zero =>
          simp only [List.getElem?_cons_zero, Option.some.injEq] at hk'
          exact ⟨0, by simp [← hk'], by omega⟩
        | succ k'' =>
          simp only [List.getElem?_cons_succ] at hk'
          refine ⟨k'' + 2, by simpa using hk', ?_⟩
          intro i x hi hx
          cases i with
          | zero =>
            simp only [List.getElem?_cons_zero, Option.some.injEq] at hx
            rw [← hx]
            exact hstrict 0 d (by omega) (by simp)
          | succ i' =>
            cases i' with
            | zero =>
              simp only [List.getElem?_cons_succ, List.getElem?_cons_zero,
                Option.some.injEq] at hx
              rw [← hx]
              exact lt_of_le_of_lt hdt (hstrict 0 d (by omega) (by simp))
            | succ i'' =>
              simp only [List.getElem?_cons_succ] at hx
              exact hstrict (i'' + 1) x (by omega) (by simpa using hx)

/-! ### The connect-users invariant -/

/-- The serving-cell reference of user `v` in plan `p` (flat cell index,
or `none`). -/
def serving (p : Plan) (v : ℕ) : Option ℕ :=
  (p.users[v]?).bind User.connected_bs

/-- The per-user conclusions of claim C5 about an evaluated plan `pf`: if
user `uidx` ends up served by cell `ci`, then the user is registered on
that cell; `ci` is among the user's recorded close cells; every recorded
close cell was strictly within radius and had spare capacity at the
moment the user was scanned (the capacity count being the connected users
with smaller index); and the serving cell is the first maximizer of
received power among the close cells (ties keep the
earliest-enumerated candidate). -/
def served_user_ok (C : Consts) (rp : ℚ → ℕ → ℤ → ℚ → ℚ) (pf : Plan) (uidx : ℕ) : Prop :=
  ∀ uu, pf.users[uidx]? = some uu → ∀ ci, uu.connected_bs = some ci →
    (∃ cc, pf.cell_at ci = some cc ∧ uidx ∈ cc.connected_users) ∧
    ci ∈ uu.close_bss ∧
    (∀ j ∈ uu.close_bss, ∃ cj r m, pf.cell_at j = some cj ∧ cj.radius C = some r ∧
      dist_lt uu.xcoord uu.ycoord cj.xcoord cj.ycoord r = true ∧
      cj.max_users C = some m ∧
      (cj.connected_users.filter (fun v => decide (v < uidx))).length < m) ∧
    (∃ k : ℕ, uu.close_bss[k]? = some ci ∧
      (∀ x ∈ uu.close_bss, ∀ qx qc,
        power_of C rp Plan.num_cells_type pf uu x = some qx →
        power_of C rp Plan.num_cells_type pf uu ci = some qc → qx ≤ qc) ∧
      (∀ (i x : ℕ), i < k → uu.close_bss[i]? = some x → ∀ qx qc,
        power_of C rp Plan.num_cells_type pf uu x = some qx →
        power_of C rp Plan.num_cells_type pf uu ci = some qc → qx < qc))

/-- Invariant of the `connect_users` loop over a fresh plan `p0` after
the first `n` users have been processed, the state now being `pn`:
the user-list length and the per-type group sizes are unchanged; every
cell carries exactly the earlier users it now serves, in index order;
users not yet processed are untouched; processed users keep their
position and satisfy the C5 per-user conclusions. -/
def conn_inv (C : Consts) (rp : ℚ → ℕ → ℤ → ℚ → ℚ) (p0 pn : Plan) (n : ℕ) : Prop :=
  pn.users.length = p0.users.length ∧
  (∀ t, pn.num_cells_type t = p0.num_cells_type t) ∧
  (∀ i c0, p0.cell_at i = some c0 →
    pn.cell_at i = some {c0 with connected_users := (List.range n).filter (fun v => decide (serving pn v = some i))}) ∧
  (∀ v, n ≤ v → pn.users[v]? = p0.users[v]?) ∧
  (∀ v, v < n →
    (∃ u0 uu, p0.users[v]? = some u0 ∧ pn.users[v]? = some uu ∧
      uu.xcoord = u0.xcoord ∧ uu.ycoord = u0.ycoord) ∧
    served_user_ok C rp pn v)

theorem power_of_congr (C : Consts) (rp : ℚ → ℕ → ℤ → ℚ → ℚ) (p q : Plan)
    (u w : User) (j : ℕ)
    (hcnt : ∀ t, q.num_cells_type t = p.num_cells_type t)
    (hpos : w.xcoord = u.xcoord ∧ w.ycoord = u.ycoord)
    (hcell : ∀ c, p.cell_at j = some c → ∃ c', q.cell_at j = some c' ∧
      c'.xcoord = c.xcoord ∧ c'.ycoord = c.ycoord ∧ c'.cell_type = c.cell_type)
    (hnone : p.cell_at j = none → q.cell_at j = none) :
    power_of C rp Plan.num_cells_type q w j = power_of C rp Plan.num_cells_type p u j := by
  unfold power_of
  cases hc : p.cell_at j with
  | none => rw [hnone hc]; rfl
  | some c =>
    obtain ⟨c', hc', hx, hy, ht⟩ := hcell c hc
    rw [hc']
    simp only [Option.some_bind]
    unfold Cell.power Cell.frequency
    rw [hx, hy, ht, hcnt, hpos.1, hpos.2]

/-- Freshness gives the invariant at `n = 0`. -/
theorem conn_inv_zero (C : Consts) (rp : ℚ → ℕ → ℤ → ℚ → ℚ) (p0 : Plan)
    (hfc : ∀ c ∈ p0.all_cells, c.connected_users = []) :
    conn_inv C rp p0 p0 0 := by
  refine ⟨rfl, fun _ => rfl, ?_, fun _ _ => rfl, fun v hv => absurd hv (by omega)⟩
  intro i c0 hc
  have hmem : c0 ∈ p0.all_cells := List.getElem?_mem hc
  have : c0.connected_users = [] := hfc c0 hmem
  cases c0
  simp only [List.range_zero, List.filter_nil]
  simp_all

theorem all_cells_length_of_counts (p q : Plan)
    (h : ∀ t, q.num_cells_type t = p.num_cells_type t) :
    q.all_cells.length = p.all_cells.length := by
  have h1 := h .FixedMacro
  have h2 := h .Macro
  have h3 := h .Micro
  have h4 := h .Pico
  have h5 := h .Femto
  simp only [Plan.num_cells_type, Plan.cells_of_type] at h1 h2 h3 h4 h5
  simp only [Plan.all_cells, List.length_append]
  omega

theorem serving_users_set_ne (p : Plan) (uidx : ℕ) (u : User) (v : ℕ) (hv : v ≠ uidx) :
    serving {p with users := p.users.set uidx u} v = serving p v := by
  unfold serving
  simp [List.getElem?_set_ne (fun h => hv h.symm)]

theorem serving_users_set_self (p : Plan) (uidx : ℕ) (u : User)
    (h : uidx < p.users.length) :
    serving {p with users := p.users.set uidx u} uidx = u.connected_bs := by
  unfold serving
  simp [List.getElem?_set_self h]

theorem serving_set_cell_at (p : Plan) (i : ℕ) (c : Cell) (v : ℕ) :
    serving (p.set_cell_at i c) v = serving p v := by
  unfold serving
  rw [Plan.set_cell_at_users]

/-- Radius and capacity getters depend only on the cell type. -/
theorem cell_params_congr (C : Consts) (c c' : Cell) (ht : c'.cell_type = c.cell_type) :
    c'.radius C = c.radius C ∧ c'.max_users C = c.max_users C ∧
    c'.min_users C = c.min_users C ∧ c'.power C = c.power C ∧
    c'.frequency C = c.frequency C := by
  unfold Cell.radius Cell.max_users Cell.min_users Cell.power Cell.frequency
  rw [ht]
  exact ⟨rfl, rfl, rfl, rfl, rfl⟩

/-- The C5 per-user conclusions transfer along any plan transformation
that keeps that user's entry, the group sizes, and each cell's shape,
only growing connected-user lists in ways that preserve the
smaller-index count. -/
theorem served_user_ok_congr (C : Consts) (rp : ℚ → ℕ → ℤ → ℚ → ℚ)
    (p q : Plan) (v : ℕ)
    (hu : q.users[v]? = p.users[v]?)
    (hcnt : ∀ t, q.num_cells_type t = p.num_cells_type t)
    (hcell : ∀ j c, p.cell_at j = some c → ∃ c', q.cell_at j = some c' ∧
        c'.xcoord = c.xcoord ∧ c'.ycoord = c.ycoord ∧ c'.cell_type = c.cell_type ∧
        (∀ w ∈ c.connected_users, w ∈ c'.connected_users) ∧
        (c'.connected_users.filter (fun w => decide (w < v))).length =
          (c.connected_users.filter (fun w => decide (w < v))).length)
    (hnone : ∀ j, p.cell_at j = none → q.cell_at j = none)
    (hok : served_user_ok C rp p v) : served_user_ok C rp q v := by
  intro uu huu ci hci
  rw [hu] at huu
  obtain ⟨hreg, hmem, hcap, hmaxx⟩ := hok uu huu ci hci
  have hpow : ∀ x, power_of C rp Plan.num_cells_type q uu x =
      power_of C rp Plan.num_cells_type p uu x := by
    intro x
    exact power_of_congr C rp p q uu uu x hcnt ⟨rfl, rfl⟩
      (fun c hc => by
        obtain ⟨c', hc', hx, hy, ht, _, _⟩ := hcell x c hc
        exact ⟨c', hc', hx, hy, ht⟩)
      (hnone x)
  refine ⟨?_, hmem, ?_, ?_⟩
  · obtain ⟨cc, hcc, hin⟩ := hreg
    obtain ⟨cc', hcc', _, _, _, hsub, _⟩ := hcell ci cc hcc
    exact ⟨cc', hcc', hsub v hin⟩
  · intro j hj
    obtain ⟨cj, r, m, hc1, hr, hd, hm, hcap'⟩ := hcap j hj
    obtain ⟨cj', hcj', hx, hy, ht, _, hfilt⟩ := hcell j cj hc1
    obtain ⟨hr', hm', _, _, _⟩ := cell_params_congr C cj cj' ht
    refine ⟨cj', r, m, hcj', ?_, ?_, ?_, ?_⟩
    · rw [hr', hr]
    · rw [hx, hy, hd]
    · rw [hm', hm]
    · rw [hfilt]; exact hcap'
  · obtain ⟨k, hk, hmax, hstrict⟩ := hmaxx
    refine ⟨k, hk, ?_, ?_⟩
    · intro x hx qx qc hqx hqc
      rw [hpow] at hqx hqc
      exact hmax x hx qx qc hqx hqc
    · intro i x hik hix qx qc hqx hqc
      rw [hpow] at hqx hqc
      exact hstrict i x hik hix qx qc hqx hqc

theorem conn_inv_step (C : Consts) (rp : ℚ → ℕ → ℤ → ℚ → ℚ) (p0 pn p' : Plan) (n : ℕ)
    (hfu : ∀ u ∈ p0.users, u.connected_bs = none)
    (hinv : conn_inv C rp p0 pn n) (hn : n < p0.users.length)
    (h : connect_one C rp Plan.num_cells_type pn n = .ok p') :
    conn_inv C rp p0 p' (n + 1) := by
  obtain ⟨hlen, hcnt, hcells, hhi, hlo⟩ := hinv
  have hu0n : pn.users[n]? = p0.users[n]? := hhi n le_rfl
  have hltn : n < pn.users.length := by omega
  obtain ⟨u0, hu0⟩ : ∃ u0, p0.users[n]? = some u0 := by
    rw [List.getElem?_eq_getElem hn]
    exact ⟨_, rfl⟩
  have hu0' : pn.users[n]? = some u0 := by rw [hu0n, hu0]
  have hu0conn : u0.connected_bs = none := hfu u0 (List.getElem?_mem hu0)
  have hlencells : pn.all_cells.length = p0.all_cells.length :=
    all_cells_length_of_counts p0 pn hcnt
  have hcell0 : ∀ j c, pn.cell_at j = some c → ∃ c0, p0.cell_at j = some c0 ∧
      c = {c0 with connected_users := (List.range n).filter (fun v => decide (serving pn v = some j))} := by
    intro j c hc
    have hj : j < pn.all_cells.length := by
      by_contra hcon
      rw [Plan.cell_at, List.getElem?_eq_none (by omega)] at hc
      exact absurd hc (by simp)
    obtain ⟨c0, hc0⟩ : ∃ c0, p0.cell_at j = some c0 := by
      rw [Plan.cell_at, List.getElem?_eq_getElem (by omega)]
      exact ⟨_, rfl⟩
    have hfm := hcells j c0 hc0
    rw [hc] at hfm
    exact ⟨c0, hc0, by injection hfm⟩
  simp only [connect_one, hu0'] at h
  split at h
  · exact absurd h (by simp)
  · rename_i close hscan
    split at h
    · -- the user's close list is empty: only its scratch list is reset
      simp only [Except.ok.injEq] at h
      subst h
      set u2e : User := ⟨u0.xcoord, u0.ycoord, [], u0.connected_bs⟩ with hu2e
      set q : Plan := {pn with users := pn.users.set n u2e} with hq
      have huq : ∀ v, v ≠ n → q.users[v]? = pn.users[v]? := by
        intro v hv
        rw [hq]
        show (pn.users.set n u2e)[v]? = _
        rw [List.getElem?_set_ne (by omega)]
      have huqn : q.users[n]? = some u2e := by
        rw [hq]
        show (pn.users.set n u2e)[n]? = _
        rw [List.getElem?_set_self hltn]
      have hcntq : ∀ t, q.num_cells_type t = pn.num_cells_type t := by
        intro t
        rw [hq, Plan.num_cells_type_users_update]
      have hcaq : ∀ i, q.cell_at i = pn.cell_at i := by
        intro i
        rw [hq, Plan.cell_at_users_update]
      have hservq : ∀ v, v ≠ n → serving q v = serving pn v := by
        intro v hv
        rw [hq]
        exact serving_users_set_ne pn n u2e v hv
      have hservqn : serving q n = none := by
        rw [hq, serving_users_set_self pn n u2e hltn]
        exact hu0conn
      refine ⟨by rw [hq]; simpa using hlen, fun t => by rw [hcntq t]; exact hcnt t, ?_, ?_, ?_⟩
      · intro i c0 hc0
        rw [hcaq, hcells i c0 hc0]
        have hfeq : (List.range (n + 1)).filter (fun v => decide (serving q v = some i)) =
            (List.range n).filter (fun v => decide (serving pn v = some i)) := by
          rw [List.range_succ, List.filter_append]
          have h1 : (List.range n).filter (fun v => decide (serving q v = some i)) =
              (List.range n).filter (fun v => decide (serving pn v = some i)) := by
            refine List.filter_congr ?_
            intro v hv
            have hvn : v < n := List.mem_range.mp hv
            rw [hservq v (by omega)]
          have h2 : [n].filter (fun v => decide (serving q v = some i)) = [] := by
            simp [List.filter, hservqn]
          rw [h1, h2, List.append_nil]
        rw [hfeq]
      · intro v hv
        rw [huq v (by omega)]
        exact hhi v (by omega)
      · intro v hv
        rcases Nat.lt_or_ge v n with hvn | hvn
        · obtain ⟨⟨u0v, uuv, h1, h2, h3, h4⟩, hpay⟩ := hlo v hvn
          refine ⟨⟨u0v, uuv, h1, by rw [huq v (by omega)]; exact h2, h3, h4⟩, ?_⟩
          refine served_user_ok_congr C rp pn q v (huq v (by omega)) hcntq ?_ ?_ hpay
          · intro j c hc
            exact ⟨c, by rw [hcaq]; exact hc, rfl, rfl, rfl, fun w hw => hw, rfl⟩
          · intro j hj
            rw [hcaq]
            exact hj
        · have hveq : v = n := by omega
          subst hveq
          refine ⟨⟨u0, u2e, hu0, huqn, rfl, rfl⟩, ?_⟩
          intro uu huu ci hci
          rw [huqn] at huu
          cases huu
          rw [hu2e] at hci
          simp only at hci
          rw [hu0conn] at hci
          exact absurd hci (by simp)
    · -- the user's close list is d :: rest: tournament, assignment, registration
      rename_i d rest
      split at h
      · exact absurd h (by simp)
      · rename_i di hpick
        split at h
        · exact absurd h (by simp)
        · rename_i c hcellp1
          simp only [Except.ok.injEq] at h
          subst h
          set u1 : User := ⟨u0.xcoord, u0.ycoord, [], u0.connected_bs⟩ with hu1
          set u2 : User := ⟨u0.xcoord, u0.ycoord, d :: rest, u0.connected_bs⟩ with hu2
          set u3 : User := ⟨u0.xcoord, u0.ycoord, d :: rest, some di⟩ with hu3
          set p1 : Plan := {pn with users := pn.users.set n u3} with hp1
          set cnew : Cell := {c with connected_users := c.connected_users ++ [n]} with hcnew
          set q : Plan := p1.set_cell_at di cnew with hqq
          have hcellpn : pn.cell_at di = some c := by
            rw [hp1, Plan.cell_at_users_update] at hcellp1
            exact hcellp1
          have hdilt : di < pn.all_cells.length := by
            by_contra hcon
            rw [Plan.cell_at, List.getElem?_eq_none (by omega)] at hcellpn
            exact absurd hcellpn (by simp)
          have hq_users : q.users = pn.users.set n u3 := by
            rw [hqq, Plan.set_cell_at_users, hp1]
          have huq : ∀ v, v ≠ n → q.users[v]? = pn.users[v]? := by
            intro v hv
            rw [hq_users, List.getElem?_set_ne (by omega)]
          have huqn : q.users[n]? = some u3 := by
            rw [hq_users, List.getElem?_set_self hltn]
          have hcntq : ∀ t, q.num_cells_type t = pn.num_cells_type t := by
            intro t
            rw [hqq, Plan.num_cells_type_set_cell_at, hp1, Plan.num_cells_type_users_update]
          have hservq : ∀ v, v ≠ n → serving q v = serving pn v := by
            intro v hv
            rw [hqq, serving_set_cell_at, hp1]
            exact serving_users_set_ne pn n u3 v hv
          have hservqn : serving q n = some di := by
            rw [hqq, serving_set_cell_at, hp1, serving_users_set_self pn n u3 hltn]
          have hcaq_ne : ∀ j, j ≠ di → q.cell_at j = pn.cell_at j := by
            intro j hj
            rw [hqq, Plan.cell_at_set_cell_at_ne p1 di j cnew (fun hh => hj hh.symm),
              hp1, Plan.cell_at_users_update]
          have hcaq_di : q.cell_at di = some cnew := by
            rw [hqq]
            refine Plan.cell_at_set_cell_at_self p1 di cnew ?_
            rw [hp1]
            show di < pn.all_cells.length
            exact hdilt
          have hcellq : ∀ (v : ℕ), v ≤ n → ∀ j c', pn.cell_at j = some c' →
              ∃ c'', q.cell_at j = some c'' ∧ c''.xcoord = c'.xcoord ∧
                c''.ycoord = c'.ycoord ∧ c''.cell_type = c'.cell_type ∧
                (∀ w ∈ c'.connected_users, w ∈ c''.connected_users) ∧
                (c''.connected_users.filter (fun w => decide (w < v))).length =
                  (c'.connected_users.filter (fun w => decide (w < v))).length := by
            intro v hv j c' hc'
            by_cases hj : j = di
            · subst hj
              rw [hcellpn] at hc'
              injection hc' with hc'
              subst hc'
              refine ⟨cnew, hcaq_di, rfl, rfl, rfl, ?_, ?_⟩
              · intro w hw
                rw [hcnew]
                exact List.mem_append_left _ hw
              · rw [hcnew]
                show ((c.connected_users ++ [n]).filter (fun w => decide (w < v))).length = _
                rw [List.filter_append]
                have : [n].filter (fun w => decide (w < v)) = [] := by
                  simp only [List.filter]
                  have : ¬ (n < v) := by omega
                  simp [this]
                rw [this, List.append_nil]
            · exact ⟨c', by rw [hcaq_ne j hj]; exact hc', rfl, rfl, rfl,
                fun w hw => hw, rfl⟩
          have hnq : ∀ j, pn.cell_at j = none → q.cell_at j = none := by
            intro j hj
            have hjne : j ≠ di := by
              intro hh
              rw [hh, hcellpn] at hj
              exact absurd hj (by simp)
            rw [hcaq_ne j hjne]
            exact hj
          refine ⟨by rw [hq_users]; simpa using hlen,
            fun t => by rw [hcntq t]; exact hcnt t, ?_, ?_, ?_⟩
          · -- the cell lists
            intro i c0 hc0
            have hfeq : (List.range (n + 1)).filter (fun v => decide (serving q v = some i)) =
                ((List.range n).filter (fun v => decide (serving pn v = some i))) ++
                  (if di = i then [n] else []) := by
              rw [List.range_succ, List.filter_append]
              have h1 : (List.range n).filter (fun v => decide (serving q v = some i)) =
                  (List.range n).filter (fun v => decide (serving pn v = some i)) := by
                refine List.filter_congr ?_
                intro v hv
                have hvn : v < n := List.mem_range.mp hv
                rw [hservq v (by omega)]
              have h2 : [n].filter (fun v => decide (serving q v = some i)) =
                  (if di = i then [n] else []) := by
                simp only [List.filter, hservqn]
                by_cases hdi : di = i
                · simp [hdi]
                · simp [hdi, Option.some.injEq]
              rw [h1, h2]
            rw [hfeq]
            by_cases hdi : di = i
            · subst hdi
              have hcn := hcells di c0 hc0
              rw [hcellpn] at hcn
              injection hcn with hcn
              rw [hcaq_di, hcnew, hcn]
              simp
            · rw [hcaq_ne i (fun hh => hdi hh.symm), hcells i c0 hc0]
              simp [hdi]
          · -- untouched users above n
            intro v hv
            rw [huq v (by omega)]
            exact hhi v (by omega)
          · -- processed users
            intro v hv
            rcases Nat.lt_or_ge v n with hvn | hvn
            · obtain ⟨⟨u0v, uuv, hh1, hh2, hh3, hh4⟩, hpay⟩ := hlo v hvn
              refine ⟨⟨u0v, uuv, hh1, by rw [huq v (by omega)]; exact hh2, hh3, hh4⟩, ?_⟩
              exact served_user_ok_congr C rp pn q v (huq v (by omega)) hcntq
                (hcellq v (by omega)) hnq hpay
            · have hveq : v = n := by omega
              subst hveq
              refine ⟨⟨u0, u3, hu0, huqn, rfl, rfl⟩, ?_⟩
              -- the freshly processed user: establish the payload
              intro uu huu ci hci
              rw [huqn] at huu
              cases huu
              have hci' : di = ci := by
                rw [hu3] at hci
                simp only at hci
                exact (Option.some.injEq _ _).mp hci
              subst hci'
              have hT := pick_desired_eq_tournament C rp Plan.num_cells_type pn u2
                rest d di hpick
              obtain ⟨hmemT, hmaxT, k, hkT, hstrictT⟩ :=
                tournament_first_max
                  (fun j => (power_of C rp Plan.num_cells_type pn u2 j).getD 0) rest d
              rw [← hT] at hmemT hmaxT hkT hstrictT
              have hPq : ∀ x, power_of C rp Plan.num_cells_type q u3 x =
                  power_of C rp Plan.num_cells_type pn u2 x := by
                intro x
                refine power_of_congr C rp pn q u2 u3 x hcntq ⟨rfl, rfl⟩ ?_ (hnq x)
                intro cx hcx
                obtain ⟨c'', hc'', hx, hy, ht, _, _⟩ := hcellq v le_rfl x cx hcx
                exact ⟨c'', hc'', hx, hy, ht⟩
              have hclose_eq :=  close_scan_ok C u1 pn.all_cells.enum [] (d :: rest) hscan
              rw [List.nil_append] at hclose_eq
              refine ⟨?_, ?_, ?_, ?_⟩
              · exact ⟨cnew, hcaq_di, by rw [hcnew]; exact List.mem_append_right _ (by simp)⟩
              · show di ∈ d :: rest
                exact hmemT
              · -- capacity and radius for every close cell
                intro j hj
                have hj' : j ∈ d :: rest := hj
                rw [hclose_eq] at hj'
                obtain ⟨⟨j', cj⟩, hmemf, hfst⟩ := List.mem_map.mp hj'
                simp only at hfst
                have hfst' : j = j' := hfst.symm
                subst hfst'

                obtain ⟨hmenum, hpred⟩ := List.mem_filter.mp hmemf
                have hcj : pn.cell_at j = some cj := by
                  rw [Plan.cell_at]
                  exact List.mk_mem_enum_iff_getElem?.mp hmenum
                obtain ⟨r, m, hr, hdlt, hm, hcap⟩ := cell_close_pred_spec C u1 cj hpred
                obtain ⟨c0j, hc0j, hcjeq⟩ := hcell0 j cj hcj
                have hbound : ∀ w ∈ cj.connected_users, w < v := by
                  intro w hw
                  rw [hcjeq] at hw
                  simp only at hw
                  have hw2 := List.mem_filter.mp hw
                  exact List.mem_range.mp hw2.1
                obtain ⟨cj', hcj', hx, hy, ht, _, _⟩ := hcellq v le_rfl j cj hcj
                obtain ⟨hr', hm', _, _, _⟩ := cell_params_congr C cj cj' ht
                have hfiltlen :
                    (cj'.connected_users.filter (fun w => decide (w < v))).length =
                      cj.connected_users.length := by
                  by_cases hjdi : j = di
                  · rw [hjdi] at hcj hcj'
                    rw [hcaq_di] at hcj'
                    injection hcj' with hcj'
                    rw [← hcj', hcnew]
                    have hcdi : c = cj := by
                      rw [hcellpn] at hcj
                      injection hcj
                    rw [hcdi]
                    show ((cj.connected_users ++ [v]).filter
                      (fun w => decide (w < v))).length = _
                    rw [List.filter_append]
                    have hone : [v].filter (fun w => decide (w < v)) = [] := by
                      simp
                    rw [hone, List.append_nil]
                    have : cj.connected_users.filter (fun w => decide (w < v)) =
                        cj.connected_users := by
                      refine List.filter_eq_self.mpr ?_
                      intro w hw
                      simpa using hbound w hw
                    rw [this]
                  · rw [hcaq_ne j hjdi] at hcj'
                    rw [hcj] at hcj'
                    injection hcj' with hcj'
                    rw [← hcj']
                    have : cj.connected_users.filter (fun w => decide (w < v)) =
                        cj.connected_users := by
                      refine List.filter_eq_self.mpr ?_
                      intro w hw
                      simpa using hbound w hw
                    rw [this]
                refine ⟨cj', r, m, hcj', by rw [hr', hr], ?_, by rw [hm', hm], ?_⟩
                · show dist_lt u3.xcoord u3.ycoord cj'.xcoord cj'.ycoord r = true
                  rw [hx, hy]
                  exact hdlt
                · rw [hfiltlen]
                  exact hcap
              · -- the serving cell is the first power maximizer
                refine ⟨k, hkT, ?_, ?_⟩
                · intro x hx qx qc hqx hqc
                  rw [hPq] at hqx hqc
                  have hfx : (power_of C rp Plan.num_cells_type pn u2 x).getD 0 = qx := by
                    rw [hqx]; rfl
                  have hfc : (power_of C rp Plan.num_cells_type pn u2 di).getD 0 = qc := by
                    rw [hqc]; rfl
                  have := hmaxT x hx
                  rw [hfx, hfc] at this
                  exact this
                · intro i x hik hix qx qc hqx hqc
                  rw [hPq] at hqx hqc
                  have hfx : (power_of C rp Plan.num_cells_type pn u2 x).getD 0 = qx := by
                    rw [hqx]; rfl
                  have hfc : (power_of C rp Plan.num_cells_type pn u2 di).getD 0 = qc := by
                    rw [hqc]; rfl
                  have := hstrictT i x hik hix
                  rw [hfx, hfc] at this
                  exact this

theorem users_loop_inv_aux (C : Consts) (rp : ℚ → ℕ → ℤ → ℚ → ℚ) (p0 : Plan)
    (hfu : ∀ u ∈ p0.users, u.connected_bs = none) :
    ∀ (k n : ℕ) (pn pf : Plan), conn_inv C rp p0 pn n → n + k = p0.users.length →
      users_loop C rp Plan.num_cells_type (List.range' n k) pn = .ok pf →
      conn_inv C rp p0 pf p0.users.length := by
  intro k
  induction k with
  | zero =>
    intro n pn pf hinv hnk h
    simp only [List.range', users_loop] at h
    cases h
    have : n = p0.users.length := by omega
    rw [← this]
    exact hinv
  | succ k' ih =>
    intro n pn pf hinv hnk h
    rw [List.range'_succ] at h
    simp only [users_loop] at h
    split at h
    · exact absurd h (by simp)
    · rename_i p1 hstep
      exact ih (n + 1) p1 pf
        (conn_inv_step C rp p0 pn p1 n hfu hinv (by omega) hstep) (by omega) h

theorem connect_users_inv (C : Consts) (rp : ℚ → ℕ → ℤ → ℚ → ℚ) (p0 pf : Plan)
    (hfc : ∀ c ∈ p0.all_cells, c.connected_users = [])
    (hfu : ∀ u ∈ p0.users, u.connected_bs = none)
    (h : p0.connect_users C rp = .ok pf) :
    conn_inv C rp p0 pf p0.users.length := by
  unfold Plan.connect_users at h
  rw [List.range_eq_range'] at h
  exact users_loop_inv_aux C rp p0 hfu p0.users.length 0 p0 pf
    (conn_inv_zero C rp p0 hfc) (by omega) h

/-! ### C5 -/

/-- C5: for every freshly constructed Plan whose evaluation step
`connect_users` succeeds (success entails the claim's precondition that
every cell's radius and capacity bounds are defined), every user with a
non-null serving cell: is registered on its serving cell; recorded the
serving cell among its close cells; recorded only cells it was strictly
inside (by radius) that had spare capacity at the moment of scanning
(the connected-count of strictly earlier users being below the capacity
ceiling); and no close cell of that user has strictly greater received
power than the serving cell — on power ties the earliest-enumerated
close cell (in fixed-macro, macro, micro, pico, femto order) is the
serving cell. -/
theorem C5_connect_users_assignment_sound (C : Consts) (rp : ℚ → ℕ → ℤ → ℚ → ℚ)
    (p0 pf : Plan)
    (hfc : ∀ c ∈ p0.all_cells, c.connected_users = [])
    (hfu : ∀ u ∈ p0.users, u.connected_bs = none)
    (h : p0.connect_users C rp = .ok pf) :
    ∀ uidx, served_user_ok C rp pf uidx := by
  have hinv := connect_users_inv C rp p0 pf hfc hfu h
  intro uidx
  rcases Nat.lt_or_ge uidx p0.users.length with hlt | hge
  · exact (hinv.2.2.2.2 uidx hlt).2
  · intro uu huu ci hci
    rw [hinv.2.2.2.1 uidx hge, List.getElem?_eq_none (by omega)] at huu
    exact absurd huu (by simp)

def c5consts : Consts :=
  ⟨0, 0, 0, 1, 1, 1, 5, 5, 5, 10, 10, 10, 0, 0, 0, 0, 0, 0⟩

def c5rp : ℚ → ℕ → ℤ → ℚ → ℚ := fun _ _ _ _ => 0

def c5plan : Plan :=
  { users := [User.init 0 0]
    candidate_points := []
    fixed_macro_cells := []
    macro_cells := [Cell.init 0 0 .Macro]
    micro_cells := []
    pico_cells := []
    femto_cells := []
    cost := none
    fitness := none
    connected_users := none }

def c5plan_after : Plan :=
  { users := [⟨0, 0, [0], some 0⟩]
    candidate_points := []
    fixed_macro_cells := []
    macro_cells := [⟨0, 0, .Macro, [0], true⟩]
    micro_cells := []
    pico_cells := []
    femto_cells := []
    cost := none
    fitness := none
    connected_users := none }

/-- Witness for C5: a one-user, one-macro-cell fresh plan whose
association step succeeds, evaluated at user index 0. -/
theorem C5_connect_users_assignment_sound_witness :
    served_user_ok c5consts c5rp c5plan_after 0 :=
  C5_connect_users_assignment_sound c5consts c5rp c5plan c5plan_after
    (by decide) (by decide) (by decide) 0

/-! ### C8 -/

theorem cells_of_type_subset_all (p : Plan) (t : CellType) :
    ∀ c ∈ p.cells_of_type t, c ∈ p.all_cells := by
  intro c hc
  cases t <;>
    simp only [Plan.cells_of_type] at hc <;>
    simp [Plan.all_cells, hc]

theorem num_active_eq_num_of_all_active (p : Plan)
    (hact : ∀ c ∈ p.all_cells, c.state = true) (t : CellType) :
    p.num_active_cells_type t = p.num_cells_type t := by
  unfold Plan.num_active_cells_type Plan.num_cells_type
  congr 1
  refine List.filter_eq_self.mpr ?_
  intro c hc
  exact hact c (cells_of_type_subset_all p t c hc)

theorem cell_power_numf_congr (C : Consts) (rp : ℚ → ℕ → ℤ → ℚ → ℚ)
    (numf numg : Plan → CellType → ℕ) (p : Plan) (u : User) (c : Cell)
    (h : ∀ t, numf p t = numg p t) :
    cell_power C rp numf p u c = cell_power C rp numg p u c := by
  unfold cell_power
  split
  · rw [h]
  · rfl

theorem pick_desired_numf_congr (C : Consts) (rp : ℚ → ℕ → ℤ → ℚ → ℚ)
    (numf numg : Plan → CellType → ℕ) (p : Plan) (u : User)
    (h : ∀ t, numf p t = numg p t) :
    ∀ (l : List ℕ) (d : ℕ),
      pick_desired C rp numf p u d l = pick_desired C rp numg p u d l := by
  intro l
  induction l with
  | nil => intro d; rfl
  | cons ti rest ih =>
    intro d
    simp only [pick_desired]
    split
    · rename_i cd ct hcd hct
      rw [cell_power_numf_congr C rp numf numg p u cd h,
        cell_power_numf_congr C rp numf numg p u ct h]
      split
      · rename_i p1 p2 hp1 hp2
        split
        · exact ih ti
        · exact ih d
      · rfl
      · rfl
    · rfl

theorem connect_one_numf_congr (C : Consts) (rp : ℚ → ℕ → ℤ → ℚ → ℚ)
    (numf numg : Plan → CellType → ℕ) (p : Plan) (i : ℕ)
    (h : ∀ t, numf p t = numg p t) :
    connect_one C rp numf p i = connect_one C rp numg p i := by
  simp only [connect_one]
  split
  · rfl
  · rename_i u0 hu0
    split
    · rfl
    · rename_i close hscan
      split
      · rfl
      · rename_i d rest
        rw [pick_desired_numf_congr C rp numf numg p _ h]

theorem connect_one_preserves_states (C : Consts) (rp : ℚ → ℕ → ℤ → ℚ → ℚ)
    (numf : Plan → CellType → ℕ) (p p' : Plan) (i : ℕ)
    (h : connect_one C rp numf p i = .ok p')
    (hact : ∀ c ∈ p.all_cells, c.state = true) :
    ∀ c ∈ p'.all_cells, c.state = true := by
  simp only [connect_one] at h
  split at h
  · cases h; exact hact
  · rename_i u0 hu0
    split at h
    · exact absurd h (by simp)
    · rename_i close hscan
      split at h
      · cases h; exact hact
      · rename_i d rest
        split at h
        · exact absurd h (by simp)
        · rename_i di hpick
          split at h
          · exact absurd h (by simp)
          · rename_i c hcell
            simp only [Except.ok.injEq] at h
            subst h
            intro c' hc'
            rw [Plan.all_cells_set_cell_at] at hc'
            rcases List.mem_or_eq_of_mem_set hc' with hm | hm
            · exact hact c' hm
            · subst hm
              show c.state = true
              rw [Plan.cell_at_users_update, Plan.cell_at] at hcell
              exact hact c (List.getElem?_mem hcell)

theorem users_loop_active_eq (C : Consts) (rp : ℚ → ℕ → ℤ → ℚ → ℚ) :
    ∀ (l : List ℕ) (p : Plan), (∀ c ∈ p.all_cells, c.state = true) →
      users_loop C rp Plan.num_cells_type l p =
        users_loop C rp Plan.num_active_cells_type l p := by
  intro l
  induction l with
  | nil => intro p _; rfl
  | cons i rest ih =>
    intro p hact
    simp only [users_loop]
    rw [← connect_one_numf_congr C rp Plan.num_cells_type Plan.num_active_cells_type p i
      (fun t => (num_active_eq_num_of_all_active p hact t).symm)]
    split
    · rfl
    · rename_i p1 hstep
      exact ih p1 (connect_one_preserves_states C rp Plan.num_cells_type p p1 i hstep hact)

def c8rp : ℚ → ℕ → ℤ → ℚ → ℚ := fun _ n _ _ => if n ≤ 1 then 1 else 0

def c8plan : Plan :=
  { users := [User.init 0 0]
    candidate_points := []
    fixed_macro_cells := []
    macro_cells := [Cell.init 0 0 .Macro, ⟨100, 100, .Macro, [], false⟩]
    micro_cells := [Cell.init 0 0 .Micro]
    pico_cells := []
    femto_cells := []
    cost := none
    fitness := none
    connected_users := none }

/-- C8 counterexample: the claim says the cell-count fed to the received
power model counts only active cells of the candidate's type.  On a plan
holding one deactivated macro cell (out of range, so it is no candidate),
`connect_users` — which uses `get_num_cells`, the raw group length —
picks a different serving cell than the spec-worded active-count variant
would, for a power model that prefers scarcer cell types: the source
counts 2 macro cells although only 1 is active. -/
theorem C8_counterexample :
    c8plan.connect_users c5consts c8rp ≠ c8plan.connect_users_active c5consts c8rp := by
  decide

/-- C8 amended: the received-power cell count used by `connect_users` is
the total number of cells of the candidate's type in the plan, active or
not; it agrees with the claimed active-cell count exactly in the
situation `operate` creates (all cells of the plan active, as on any
freshly constructed plan), where `connect_users` and the active-count
variant coincide. -/
theorem C8_count_active_agreement (C : Consts) (rp : ℚ → ℕ → ℤ → ℚ → ℚ) (p : Plan)
    (hact : ∀ c ∈ p.all_cells, c.state = true) :
    p.connect_users C rp = p.connect_users_active C rp :=
  users_loop_active_eq C rp (List.range p.users.length) p hact

/-- Witness for C8: the agreement theorem evaluated on a concrete
all-active plan. -/
theorem C8_count_active_agreement_witness :
    c5plan.connect_users c5consts c5rp = c5plan.connect_users_active c5consts c5rp :=
  C8_count_active_agreement c5consts c5rp c5plan (by decide)

/-! ### Deactivation (`check_if_needed` / `disconnect_unneeded_cells`) -/

/-- `for user in self._connected_users: user.set_connected_bs(None)`:
clear the serving reference of every listed user. -/
def clear_users : List User → List ℕ → List User
  | users, [] => users
  | users, v :: rest =>
    match users[v]? with
    | none => clear_users users rest
    | some u => clear_users (users.set v {u with connected_bs := none}) rest

/-- `Cell.check_if_needed` (`cell.py` lines 164-176): the `<` comparison
against a `None` minimum raises a TypeError; below the floor, the cell is
switched off, every connected user's serving reference is cleared (no
reassignment) and the connected list is emptied. -/
def check_if_needed (C : Consts) (c : Cell) (users : List User) :
    Except PyError (Cell × List User) :=
  match c.min_users C with
  | none => .error .typeError
  | some m =>
    if c.connected_users.length < m then
      .ok ({c with state := false, connected_users := []},
        clear_users users c.connected_users)
    else .ok (c, users)

/-- The cell loop of `disconnect_unneeded_cells`. -/
def cells_loop (C : Consts) : List ℕ → Plan → Except PyError Plan
  | [], p => .ok p
  | i :: rest, p =>
    match p.cell_at i with
    | none => cells_loop C rest p
    | some c =>
      match check_if_needed C c p.users with
      | .error e => .error e
      | .ok cu => cells_loop C rest (Plan.set_cell_at {p with users := cu.2} i cu.1)

/-- `Plan.disconnect_unneeded_cells` (`plan.py` lines 182-185): run
`check_if_needed` over every cell in `get_cells("all")` order. -/
def Plan.disconnect_unneeded_cells (C : Consts) (p : Plan) : Except PyError Plan :=
  cells_loop C (List.range p.all_cells.length) p

/-! ### C4 -/

def c4plan : Plan :=
  { users := []
    candidate_points := []
    fixed_macro_cells := []
    macro_cells := []
    micro_cells := []
    pico_cells := [Cell.init 0 0 .Pico]
    femto_cells := []
    cost := none
    fitness := none
    connected_users := none }

/-- C4: the claim says that for cell types with no minimum-users floor
(pico and femto, `min_users = None`) the deactivation rule is a no-op
rather than a numeric-comparison error.  In the code it IS the
numeric-comparison error: `check_if_needed` compares
`get_num_connected_users() < None`, a TypeError, for every pico or femto
cell and any user list (the cell is indeed never deactivated, but by
crashing, not by design), and `disconnect_unneeded_cells` on any plan
containing such a cell — here a one-pico-cell plan — propagates that
error. -/
theorem C4_bug_undefined_floor_comparison_error :
    (∀ (C : Consts) (users : List User),
      check_if_needed C (Cell.init 0 0 .Pico) users = .error .typeError ∧
      check_if_needed C (Cell.init 0 0 .Femto) users = .error .typeError) ∧
    (∀ C : Consts, c4plan.disconnect_unneeded_cells C = .error .typeError) := by
  exact ⟨fun C users => ⟨rfl, rfl⟩, fun C => rfl⟩

/-! ### C6 -/

theorem clear_users_length : ∀ (l : List ℕ) (users : List User),
    (clear_users users l).length = users.length := by
  intro l
  induction l with
  | nil => intro users; rfl
  | cons v0 rest ih =>
    intro users
    simp only [clear_users]
    split
    · exact ih users
    · rw [ih]
      simp

theorem clear_users_getElem?_not_mem : ∀ (l : List ℕ) (users : List User) (v : ℕ),
    v ∉ l → (clear_users users l)[v]? = users[v]? := by
  intro l
  induction l with
  | nil => intro users v _; rfl
  | cons v0 rest ih =>
    intro users v hv
    have hvne : v ≠ v0 := fun hh => hv (hh ▸ List.mem_cons_self _ _)
    have hvrest : v ∉ rest := fun hh => hv (List.mem_cons_of_mem _ hh)
    simp only [clear_users]
    split
    · exact ih users v hvrest
    · rw [ih _ v hvrest, List.getElem?_set_ne (fun hh => hvne hh.symm)]

theorem clear_users_getElem?_mem : ∀ (l : List ℕ) (users : List User) (v : ℕ),
    v ∈ l → (clear_users users l)[v]? =
      (users[v]?).map (fun u => {u with connected_bs := none}) := by
  intro l
  induction l with
  | nil => intro users v hv; exact absurd hv (by simp)
  | cons v0 rest ih =>
    intro users v hv
    simp only [clear_users]
    by_cases hvrest : v ∈ rest
    · split
      · exact ih users v hvrest
      · rename_i u hu
        rw [ih _ v hvrest]
        by_cases hveq : v = v0
        · subst hveq
          rw [List.getElem?_set_self (by
            have := List.getElem?_eq_some.mp hu
            exact this.1), hu]
          rfl
        · rw [List.getElem?_set_ne (fun hh => hveq hh.symm)]
    · have hveq : v = v0 := by
        rcases List.mem_cons.mp hv with hh | hh
        · exact hh
        · exact absurd hh hvrest
      subst hveq
      split
      · rename_i hu
        rw [clear_users_getElem?_not_mem rest users v hvrest, hu]
        rfl
      · rename_i u hu
        rw [clear_users_getElem?_not_mem rest _ v hvrest,
          List.getElem?_set_self (by
            have := List.getElem?_eq_some.mp hu
            exact this.1), hu]
        rfl

/-- Cell `i` of plan `p1` is below its (defined) floor, so the
deactivation pass clears it. -/
def cell_cleared (C : Consts) (p1 : Plan) (i : ℕ) : Prop :=
  ∃ c1 m, p1.cell_at i = some c1 ∧ c1.min_users C = some m ∧
    c1.connected_users.length < m

/-- Invariant of the `disconnect_unneeded_cells` pass over `p1` after the
first `k` cells have been checked, the state now being `q`. -/
def disc_inv (C : Consts) (p1 q : Plan) (k : ℕ) : Prop :=
  q.users.length = p1.users.length ∧
  q.all_cells.length = p1.all_cells.length ∧
  (∀ i, k ≤ i → q.cell_at i = p1.cell_at i) ∧
  (∀ i, i < k → ∀ c1, p1.cell_at i = some c1 →
    (∃ m, c1.min_users C = some m) ∧
    (∀ m, c1.min_users C = some m →
      (c1.connected_users.length < m →
        q.cell_at i = some {c1 with state := false, connected_users := []}) ∧
      (m ≤ c1.connected_users.length → q.cell_at i = some c1))) ∧
  (∀ v, serving q v = none ∨ serving q v = serving p1 v) ∧
  (∀ v i, serving p1 v = some i → i < k → cell_cleared C p1 i → serving q v = none) ∧
  (∀ v i, serving p1 v = some i → (k ≤ i ∨ ¬ cell_cleared C p1 i) →
    serving q v = serving p1 v)

theorem disc_inv_zero (C : Consts) (p1 : Plan) : disc_inv C p1 p1 0 :=
  ⟨rfl, rfl, fun _ _ => rfl, fun i hi => absurd hi (by omega),
    fun v => .inr rfl, fun v i _ hi => absurd hi (by omega), fun v i _ _ => rfl⟩

theorem cells_loop_inv (C : Consts) (p1 : Plan)
    (hcons1 : ∀ i c1, p1.cell_at i = some c1 → ∀ v ∈ c1.connected_users,
      serving p1 v = some i)
    (hcons2 : ∀ v i, serving p1 v = some i → ∀ c1, p1.cell_at i = some c1 →
      v ∈ c1.connected_users) :
    ∀ (m k : ℕ) (q qf : Plan), disc_inv C p1 q k →
      cells_loop C (List.range' k m) q = .ok qf → disc_inv C p1 qf (k + m) := by
  intro m
  induction m with
  | zero =>
    intro k q qf hinv h
    simp only [List.range', cells_loop] at h
    cases h
    exact hinv
  | succ m' ih =>
    intro k q qf hinv h
    obtain ⟨hul, hal, hhi, hdone, hweak, hcl, hunc⟩ := hinv
    rw [List.range'_succ] at h
    simp only [cells_loop] at h
    have hnext : ∀ q1, disc_inv C p1 q1 (k + 1) →
        cells_loop C (List.range' (k + 1) m') q1 = .ok qf →
        disc_inv C p1 qf (k + (m' + 1)) := by
      intro q1 hq1 hh
      have heq : k + 1 + m' = k + (m' + 1) := by omega
      exact heq ▸ ih (k + 1) q1 qf hq1 hh
    split at h
    · -- q.cell_at k = none: nothing at k changes
      rename_i hnone
      have hp1none : p1.cell_at k = none := by rw [← hhi k le_rfl]; exact hnone
      refine hnext q ?_ h
      refine ⟨hul, hal, fun i hi => hhi i (by omega), ?_, hweak, ?_, ?_⟩
      · intro i hi c1 hc1
        rcases Nat.lt_or_ge i k with hik | hik
        · exact hdone i hik c1 hc1
        · have : i = k := by omega
          subst this
          rw [hp1none] at hc1
          exact absurd hc1 (by simp)
      · intro v i hv hi hcli
        rcases Nat.lt_or_ge i k with hik | hik
        · exact hcl v i hv hik hcli
        · have : i = k := by omega
          subst this
          obtain ⟨c1, m1, hc1, _, _⟩ := hcli
          rw [hp1none] at hc1
          exact absurd hc1 (by simp)
      · intro v i hv hcase
        refine hunc v i hv ?_
        rcases hcase with hik | hncl
        · rcases Nat.lt_or_ge i k with hik' | hik'
          · right
            intro hcli
            obtain ⟨c1, m1, hc1, _, _⟩ := hcli
            have : i = k := by omega
            subst this
            rw [hp1none] at hc1
            exact absurd hc1 (by simp)
          · left; omega
        · right; exact hncl
    · rename_i c hsome
      have hp1k : p1.cell_at k = some c := by rw [← hhi k le_rfl]; exact hsome
      have hklt : k < q.all_cells.length := by
        by_contra hcon
        rw [Plan.cell_at, List.getElem?_eq_none (by omega)] at hsome
        exact absurd hsome (by simp)
      split at h
      · exact absurd h (by simp)
      · rename_i cu hchk
        simp only [check_if_needed] at hchk
        split at hchk
        · exact absurd hchk (by simp)
        · rename_i m1 hm1
          split at hchk
          · -- below the floor: deactivate and clear every connected user
            rename_i hlt
            simp only [Except.ok.injEq] at hchk
            subst hchk
            set us1 : List User := clear_users q.users c.connected_users with hus1
            set cdead : Cell := {c with state := false, connected_users := []} with hcdead
            set q1 : Plan := Plan.set_cell_at {q with users := us1} k cdead with hq1
            refine hnext q1 ?_ h
            have hclk : cell_cleared C p1 k := ⟨c, m1, hp1k, hm1, hlt⟩
            have husers : ∀ v, us1[v]? =
                (if v ∈ c.connected_users then
                  (q.users[v]?).map (fun u => {u with connected_bs := none})
                else q.users[v]?) := by
              intro v
              rw [hus1]
              by_cases hv : v ∈ c.connected_users
              · rw [if_pos hv]; exact clear_users_getElem?_mem _ _ v hv
              · rw [if_neg hv]; exact clear_users_getElem?_not_mem _ _ v hv
            have hservq' : ∀ v, serving q1 v =
                (if v ∈ c.connected_users then none else serving q v) := by
              intro v
              rw [hq1, serving_set_cell_at]
              show (us1[v]?).bind User.connected_bs = _
              rw [husers v]
              by_cases hv : v ∈ c.connected_users
              · rw [if_pos hv, if_pos hv]
                cases q.users[v]? <;> rfl
              · rw [if_neg hv, if_neg hv]
                rfl
            have hcaq' : ∀ i, i ≠ k → q1.cell_at i = q.cell_at i := by
              intro i hi
              rw [hq1, Plan.cell_at_set_cell_at_ne _ _ _ _ (fun hh => hi hh.symm),
                Plan.cell_at_users_update]
            have hcaqk : q1.cell_at k = some cdead := by
              rw [hq1]
              refine Plan.cell_at_set_cell_at_self _ _ _ ?_
              rw [Plan.all_cells_users_update]
              exact hklt
            refine ⟨?_, ?_, ?_, ?_, ?_, ?_, ?_⟩
            · rw [hq1, Plan.set_cell_at_users]
              show us1.length = _
              rw [hus1, clear_users_length]
              exact hul
            · rw [hq1, Plan.all_cells_set_cell_at, List.length_set,
                Plan.all_cells_users_update]
              exact hal
            · intro i hi
              rw [hcaq' i (by omega)]
              exact hhi i (by omega)
            · intro i hi c1 hc1
              rcases Nat.lt_or_ge i k with hik | hik
              · obtain ⟨hex, hbr⟩ := hdone i hik c1 hc1
                refine ⟨hex, ?_⟩
                intro m hm
                obtain ⟨hb1, hb2⟩ := hbr m hm
                exact ⟨fun hl => by rw [hcaq' i (by omega)]; exact hb1 hl,
                  fun hl => by rw [hcaq' i (by omega)]; exact hb2 hl⟩
              · have : i = k := by omega
                subst this
                rw [hp1k] at hc1
                injection hc1 with hc1
                subst hc1
                refine ⟨⟨m1, hm1⟩, ?_⟩
                intro m hm
                rw [hm1] at hm
                injection hm with hm
                subst hm
                exact ⟨fun _ => hcaqk, fun hl => by omega⟩
            · intro v
              rw [hservq' v]
              by_cases hv : v ∈ c.connected_users
              · rw [if_pos hv]; exact .inl rfl
              · rw [if_neg hv]; exact hweak v
            · intro v i hv hi hcli
              rw [hservq' v]
              by_cases hvm : v ∈ c.connected_users
              · rw [if_pos hvm]
              · rw [if_neg hvm]
                rcases Nat.lt_or_ge i k with hik | hik
                · exact hcl v i hv hik hcli
                · have : i = k := by omega
                  subst this
                  exact absurd (hcons2 v i hv c hp1k) hvm
            · intro v i hv hcase
              rw [hservq' v]
              by_cases hvm : v ∈ c.connected_users
              · exfalso
                have hvk := hcons1 k c hp1k v hvm
                rw [hv] at hvk
                injection hvk with hvk
                subst hvk
                rcases hcase with hik | hncl
                · omega
                · exact hncl hclk
              · rw [if_neg hvm]
                refine hunc v i hv ?_
                rcases hcase with hik | hncl
                · left; omega
                · right; exact hncl
          · -- at or above the floor: the cell is kept untouched
            rename_i hge
            simp only [Except.ok.injEq] at hchk
            subst hchk
            set q1 : Plan := Plan.set_cell_at {q with users := q.users} k c with hq1
            refine hnext q1 ?_ h
            have hcaq' : ∀ i, i ≠ k → q1.cell_at i = q.cell_at i := by
              intro i hi
              rw [hq1, Plan.cell_at_set_cell_at_ne _ _ _ _ (fun hh => hi hh.symm),
                Plan.cell_at_users_update]
            have hcaqk : q1.cell_at k = some c := by
              rw [hq1]
              refine Plan.cell_at_set_cell_at_self _ _ _ ?_
              rw [Plan.all_cells_users_update]
              exact hklt
            have hserv' : ∀ v, serving q1 v = serving q v := by
              intro v
              rw [hq1, serving_set_cell_at]
            refine ⟨?_, ?_, ?_, ?_, ?_, ?_, ?_⟩
            · rw [hq1, Plan.set_cell_at_users]
              exact hul
            · rw [hq1, Plan.all_cells_set_cell_at, List.length_set,
                Plan.all_cells_users_update]
              exact hal
            · intro i hi
              rw [hcaq' i (by omega)]
              exact hhi i (by omega)
            · intro i hi c1 hc1
              rcases Nat.lt_or_ge i k with hik | hik
              · obtain ⟨hex, hbr⟩ := hdone i hik c1 hc1
                refine ⟨hex, ?_⟩
                intro m hm
                obtain ⟨hb1, hb2⟩ := hbr m hm
                exact ⟨fun hl => by rw [hcaq' i (by omega)]; exact hb1 hl,
                  fun hl => by rw [hcaq' i (by omega)]; exact hb2 hl⟩
              · have : i = k := by omega
                subst this
                rw [hp1k] at hc1
                injection hc1 with hc1
                subst hc1
                refine ⟨⟨m1, hm1⟩, ?_⟩
                intro m hm
                rw [hm1] at hm
                injection hm with hm
                subst hm
                exact ⟨fun hl => by omega, fun _ => hcaqk⟩
            · intro v
              rw [hserv' v]
              exact hweak v
            · intro v i hv hi hcli
              rw [hserv' v]
              rcases Nat.lt_or_ge i k with hik | hik
              · exact hcl v i hv hik hcli
              · have : i = k := by omega
                subst this
                obtain ⟨c1, m2, hc1, hm2, hlt2⟩ := hcli
                rw [hp1k] at hc1
                injection hc1 with hc1
                subst hc1
                rw [hm1] at hm2
                injection hm2 with hm2
                omega
            · intro v i hv hcase
              rw [hserv' v]
              refine hunc v i hv ?_
              rcases hcase with hik | hncl
              · left; omega
              · right; exact hncl

/-- C6: on a freshly constructed (all cells active, no connected users,
all users unconnected) plan whose association step produced `p1` and
whose deactivation pass then produced `p2`: every cell of `p2` that is
still active and has a defined minimum-users floor holds at least that
many connected users; every cell the pass deactivated has an empty
connected-user list and every one of its former users' serving
references is cleared; and no user is reassigned — each serving
reference is either cleared or exactly what the association step set. -/
theorem C6_disconnect_unneeded_cells_post (C : Consts) (rp : ℚ → ℕ → ℤ → ℚ → ℚ)
    (p0 p1 p2 : Plan)
    (hfc : ∀ c ∈ p0.all_cells, c.connected_users = [])
    (hfu : ∀ u ∈ p0.users, u.connected_bs = none)
    (hstate : ∀ c ∈ p0.all_cells, c.state = true)
    (hconn : p0.connect_users C rp = .ok p1)
    (hdisc : p1.disconnect_unneeded_cells C = .ok p2) :
    (∀ i c, p2.cell_at i = some c → c.state = true → ∀ m, c.min_users C = some m →
      m ≤ c.connected_users.length) ∧
    (∀ i c, p2.cell_at i = some c → c.state = false → c.connected_users = [] ∧
      ∀ c1, p1.cell_at i = some c1 → ∀ v ∈ c1.connected_users, serving p2 v = none) ∧
    (∀ v, serving p2 v = none ∨ serving p2 v = serving p1 v) := by
  have hinv := connect_users_inv C rp p0 p1 hfc hfu hconn
  obtain ⟨hlen, hcnt, hcells, hhi, hlo⟩ := hinv
  have hlencells : p1.all_cells.length = p0.all_cells.length :=
    all_cells_length_of_counts p0 p1 hcnt
  have hcellform : ∀ i c1, p1.cell_at i = some c1 → ∃ c0, p0.cell_at i = some c0 ∧
      c1 = {c0 with connected_users := (List.range p0.users.length).filter (fun v => decide (serving p1 v = some i))} := by
    intro i c1 hc1
    have hi : i < p1.all_cells.length := by
      by_contra hcon
      rw [Plan.cell_at, List.getElem?_eq_none (by omega)] at hc1
      exact absurd hc1 (by simp)
    obtain ⟨c0, hc0⟩ : ∃ c0, p0.cell_at i = some c0 := by
      rw [Plan.cell_at, List.getElem?_eq_getElem (by omega)]
      exact ⟨_, rfl⟩
    have := hcells i c0 hc0
    rw [hc1] at this
    exact ⟨c0, hc0, by injection this⟩
  have hcons1 : ∀ i c1, p1.cell_at i = some c1 → ∀ v ∈ c1.connected_users,
      serving p1 v = some i := by
    intro i c1 hc1 v hv
    obtain ⟨c0, hc0, hform⟩ := hcellform i c1 hc1
    rw [hform] at hv
    simp only at hv
    have := (List.mem_filter.mp hv).2
    simpa using this
  have hcons2 : ∀ v i, serving p1 v = some i → ∀ c1, p1.cell_at i = some c1 →
      v ∈ c1.connected_users := by
    intro v i hv c1 hc1
    obtain ⟨c0, hc0, hform⟩ := hcellform i c1 hc1
    rw [hform]
    simp only
    refine List.mem_filter.mpr ⟨List.mem_range.mpr ?_, by simpa using hv⟩
    unfold serving at hv
    cases hu : p1.users[v]? with
    | none => rw [hu] at hv; exact absurd hv (by simp)
    | some u =>
      have : v < p1.users.length := by
        have := List.getElem?_eq_some.mp hu
        exact this.1
      omega
  have hstates1 : ∀ i c1, p1.cell_at i = some c1 → c1.state = true := by
    intro i c1 hc1
    obtain ⟨c0, hc0, hform⟩ := hcellform i c1 hc1
    rw [hform]
    exact hstate c0 (List.getElem?_mem hc0)
  unfold Plan.disconnect_unneeded_cells at hdisc
  rw [List.range_eq_range'] at hdisc
  have hdinv := cells_loop_inv C p1 hcons1 hcons2 p1.all_cells.length 0 p1 p2
    (disc_inv_zero C p1) hdisc
  rw [Nat.zero_add] at hdinv
  obtain ⟨dul, dal, dhi, ddone, dweak, dcl, dunc⟩ := hdinv
  have hp1at : ∀ i c, p2.cell_at i = some c → ∃ c1, p1.cell_at i = some c1 := by
    intro i c hc
    have hi2 : i < p2.all_cells.length := by
      by_contra hcon
      rw [Plan.cell_at, List.getElem?_eq_none (by omega)] at hc
      exact absurd hc (by simp)
    rw [Plan.cell_at, List.getElem?_eq_getElem (by omega)]
    exact ⟨_, rfl⟩
  refine ⟨?_, ?_, dweak⟩
  · -- active cells with a defined floor meet it
    intro i c hc hact m hm
    obtain ⟨c1, hc1⟩ := hp1at i c hc
    have hi1 : i < p1.all_cells.length := by
      by_contra hcon
      rw [Plan.cell_at, List.getElem?_eq_none (by omega)] at hc1
      exact absurd hc1 (by simp)
    obtain ⟨⟨m1, hm1⟩, hbr⟩ := ddone i hi1 c1 hc1
    obtain ⟨hb1, hb2⟩ := hbr m1 hm1
    rcases Nat.lt_or_ge c1.connected_users.length m1 with hlt | hge
    · rw [hb1 hlt] at hc
      injection hc with hc
      rw [← hc] at hact
      exact absurd hact (by simp)
    · rw [hb2 hge] at hc
      injection hc with hc
      subst hc
      rw [hm1] at hm
      injection hm with hm
      omega
  · -- deactivated cells are empty and their users stay disconnected
    intro i c hc hoff
    obtain ⟨c1, hc1⟩ := hp1at i c hc
    have hi1 : i < p1.all_cells.length := by
      by_contra hcon
      rw [Plan.cell_at, List.getElem?_eq_none (by omega)] at hc1
      exact absurd hc1 (by simp)
    obtain ⟨⟨m1, hm1⟩, hbr⟩ := ddone i hi1 c1 hc1
    obtain ⟨hb1, hb2⟩ := hbr m1 hm1
    rcases Nat.lt_or_ge c1.connected_users.length m1 with hlt | hge
    · rw [hb1 hlt] at hc
      injection hc with hc
      subst hc
      refine ⟨rfl, ?_⟩
      intro c1' hc1' v hv
      rw [hc1] at hc1'
      injection hc1' with hc1'
      subst hc1'
      have hserv := hcons1 i c1 hc1 v hv
      exact dcl v i hserv hi1 ⟨c1, m1, hc1, hm1, hlt⟩
    · exfalso
      rw [hb2 hge] at hc
      injection hc with hc
      subst hc
      rw [hstates1 i c1 hc1] at hoff
      exact absurd hoff (by simp)

/-- Witness for C6: the deactivation postcondition on the concrete
one-user, one-macro-cell plan, whose single cell meets its floor of 1
and stays active. -/
theorem C6_disconnect_unneeded_cells_post_witness :
    (∀ i c, c5plan_after.cell_at i = some c → c.state = true →
      ∀ m, c.min_users c5consts = some m → m ≤ c.connected_users.length) ∧
    (∀ i c, c5plan_after.cell_at i = some c → c.state = false →
      c.connected_users = [] ∧ ∀ c1, c5plan_after.cell_at i = some c1 →
        ∀ v ∈ c1.connected_users, serving c5plan_after v = none) ∧
    (∀ v, serving c5plan_after v = none ∨
      serving c5plan_after v = serving c5plan_after v) :=
  C6_disconnect_unneeded_cells_post c5consts c5rp c5plan c5plan_after c5plan_after
    (by decide) (by decide) (by decide) (by decide) (by decide)

/-! ### Crossover (`crossover.py`) -/

/-- Writes cell `c` at index `i` of the `get_cells("non_fixed")` order,
into whichever per-type group the index falls. -/
def Plan.set_non_fixed (p : Plan) (i : ℕ) (c : Cell) : Plan :=
  if i < p.macro_cells.length then
    {p with macro_cells := p.macro_cells.set i c}
  else if i < p.macro_cells.length + p.micro_cells.length then
    {p with micro_cells := p.micro_cells.set (i - p.macro_cells.length) c}
  else if i < p.macro_cells.length + p.micro_cells.length + p.pico_cells.length then
    {p with pico_cells := p.pico_cells.set (i - p.macro_cells.length - p.micro_cells.length) c}
  else
    {p with femto_cells := p.femto_cells.set (i - p.macro_cells.length - p.micro_cells.length - p.pico_cells.length) c}

/-- One index step of the crossover loop (`crossover.py` lines 21-35):
one probability draw `rn`; at or below `crossover_probabilty` with the
`"simple_arithmetic"` method, the strategy mutates the two same-index
non-fixed cells in place (an unknown method name silently does nothing);
the debug prints then index both children's non-fixed lists, an
IndexError when the second genome is shorter.
`sa_crossover` itself is modelled from the spec: the file
`simple_arithmetic_crossover.py` is not under the provided sources, and
§4.5 treats it as a pluggable strategy over the blend factor and the two
cells, so it enters as an arbitrary strategy oracle `sa`. -/
def cross_step (sa : ℚ → Cell → Cell → Cell × Cell) (crossover_method : String)
    (alpha crossover_probabilty rn : ℚ) (i : ℕ) (c1 c2 : Plan) :
    Except PyError (Plan × Plan) :=
  if rn ≤ crossover_probabilty ∧ crossover_method = "simple_arithmetic" then
    match c1.non_fixed_cells[i]?, c2.non_fixed_cells[i]? with
    | some a, some b =>
      .ok (c1.set_non_fixed i (sa alpha a b).1, c2.set_non_fixed i (sa alpha a b).2)
    | _, _ => .error .indexError
  else
    if i < c1.non_fixed_cells.length ∧ i < c2.non_fixed_cells.length then .ok (c1, c2)
    else .error .indexError

/-- The per-pair index loop of `crossover`, over
`range(len(parent1.get_cells("non_fixed")))`. -/
def cross_loop (sa : ℚ → Cell → Cell → Cell × Cell) (method : String)
    (alpha pc : ℚ) (rnd : ℕ → ℚ) : List ℕ → Plan × Plan → Except PyError (Plan × Plan)
  | [], cs => .ok cs
  | i :: rest, cs =>
    match cross_step sa method alpha pc (rnd i) i cs.1 cs.2 with
    | .error e => .error e
    | .ok cs' => cross_loop sa method alpha pc rnd rest cs'

/-- The pair loop of `crossover`: `num_children = len(pool) // 2` rounds,
each drawing two parents with replacement (`np.random.choice`, modelled
by the index oracle `pick`), deep-copying them into children and running
the index loop, then appending both children. -/
def cross_pairs (sa : ℚ → Cell → Cell → Cell × Cell) (method : String)
    (alpha pc : ℚ) (pick : ℕ → ℕ × ℕ) (rnd : ℕ → ℕ → ℚ) (pool : List Plan) :
    ℕ → ℕ → Except PyError (List Plan)
  | _, 0 => .ok []
  | k, n + 1 =>
    match pool[(pick k).1]?, pool[(pick k).2]? with
    | some parent1, some parent2 =>
      match cross_loop sa method alpha pc (rnd k)
          (List.range parent1.non_fixed_cells.length) (parent1, parent2) with
      | .error e => .error e
      | .ok cs =>
        match cross_pairs sa method alpha pc pick rnd pool (k + 1) n with
        | .error e => .error e
        | .ok restl => .ok (cs.1 :: cs.2 :: restl)
    | _, _ => .error .indexError

/-- `crossover(pool, crossover_probabilty, crosspoints, crossover_method,
alpha)` — `crosspoints` is accepted and unused, as in the source. -/
def crossover (pool : List Plan) (crossover_probabilty : ℚ) (crosspoints : ℕ)
    (crossover_method : String) (alpha : ℚ) (sa : ℚ → Cell → Cell → Cell × Cell)
    (pick : ℕ → ℕ × ℕ) (rnd : ℕ → ℕ → ℚ) : Except PyError (List Plan) :=
  cross_pairs sa crossover_method alpha crossover_probabilty pick rnd pool
    0 (pool.length / 2)

theorem Plan.set_non_fixed_fixed_macro (p : Plan) (i : ℕ) (c : Cell) :
    (p.set_non_fixed i c).fixed_macro_cells = p.fixed_macro_cells := by
  unfold Plan.set_non_fixed
  split_ifs <;> rfl

theorem Plan.non_fixed_set_non_fixed (p : Plan) (i : ℕ) (c : Cell) :
    (p.set_non_fixed i c).non_fixed_cells = p.non_fixed_cells.set i c := by
  unfold Plan.set_non_fixed Plan.non_fixed_cells
  split_ifs with h1 h2 h3 <;>
    simp only [List.set_append, List.length_append] <;>
    split_ifs <;>
    first
      | omega
      | (simp only [Nat.sub_sub, Nat.add_assoc])

theorem cross_step_cases (sa : ℚ → Cell → Cell → Cell × Cell) (method : String)
    (alpha pc rn : ℚ) (i : ℕ) (c1 c2 c1' c2' : Plan)
    (h : cross_step sa method alpha pc rn i c1 c2 = .ok (c1', c2')) :
    (c1' = c1 ∧ c2' = c2) ∨
    (rn ≤ pc ∧ ∃ a b, c1' = c1.set_non_fixed i (sa alpha a b).1 ∧
      c2' = c2.set_non_fixed i (sa alpha a b).2) := by
  unfold cross_step at h
  split at h
  · rename_i hcond
    split at h
    · rename_i a b ha hb
      simp only [Except.ok.injEq, Prod.mk.injEq] at h
      exact .inr ⟨hcond.1, a, b, h.1.symm, h.2.symm⟩
    · exact absurd h (by simp)
  · split at h
    · simp only [Except.ok.injEq, Prod.mk.injEq] at h
      exact .inl ⟨h.1.symm, h.2.symm⟩
    · exact absurd h (by simp)

theorem cross_loop_frame (sa : ℚ → Cell → Cell → Cell × Cell) (method : String)
    (alpha pc : ℚ) (rnd : ℕ → ℚ) :
    ∀ (L : List ℕ) (cs cs' : Plan × Plan),
      cross_loop sa method alpha pc rnd L cs = .ok cs' →
      (cs'.1.fixed_macro_cells = cs.1.fixed_macro_cells ∧
        cs'.2.fixed_macro_cells = cs.2.fixed_macro_cells) ∧
      ∀ i, pc < rnd i →
        cs'.1.non_fixed_cells[i]? = cs.1.non_fixed_cells[i]? ∧
        cs'.2.non_fixed_cells[i]? = cs.2.non_fixed_cells[i]? := by
  intro L
  induction L with
  | nil =>
    intro cs cs' h
    simp only [cross_loop] at h
    cases h
    exact ⟨⟨rfl, rfl⟩, fun i _ => ⟨rfl, rfl⟩⟩
  | cons j rest ih =>
    intro cs cs' h
    simp only [cross_loop] at h
    split at h
    · exact absurd h (by simp)
    · rename_i cs1 hstep
      have hrec := ih cs1 cs' h
      rcases cross_step_cases sa method alpha pc (rnd j) j cs.1 cs.2 cs1.1 cs1.2
        (by rw [← Prod.mk.eta (p := cs1)] at hstep; exact hstep) with
        ⟨he1, he2⟩ | ⟨hle, a, b, he1, he2⟩
      · rw [he1, he2] at hrec
        exact hrec
      · refine ⟨?_, ?_⟩
        · rw [hrec.1.1, hrec.1.2, he1, he2,
            Plan.set_non_fixed_fixed_macro, Plan.set_non_fixed_fixed_macro]
          exact ⟨rfl, rfl⟩
        · intro i hi
          have hij : j ≠ i := by
            intro hh
            subst hh
            exact absurd hle (by exact not_le.mpr hi)
          obtain ⟨hr1, hr2⟩ := hrec.2 i hi
          rw [hr1, hr2, he1, he2, Plan.non_fixed_set_non_fixed,
            Plan.non_fixed_set_non_fixed, List.getElem?_set_ne hij,
            List.getElem?_set_ne hij]
          exact ⟨rfl, rfl⟩

theorem cross_pairs_spec (sa : ℚ → Cell → Cell → Cell × Cell) (method : String)
    (alpha pc : ℚ) (pick : ℕ → ℕ × ℕ) (rnd : ℕ → ℕ → ℚ) (pool : List Plan) :
    ∀ (n k0 : ℕ) (out : List Plan),
      cross_pairs sa method alpha pc pick rnd pool k0 n = .ok out →
      ∀ j, j < n → ∃ P1 P2 cs,
        pool[(pick (k0 + j)).1]? = some P1 ∧ pool[(pick (k0 + j)).2]? = some P2 ∧
        cross_loop sa method alpha pc (rnd (k0 + j))
          (List.range P1.non_fixed_cells.length) (P1, P2) = .ok cs ∧
        out[2 * j]? = some cs.1 ∧ out[2 * j + 1]? = some cs.2 := by
  intro n
  induction n with
  | zero =>
    intro k0 out h j hj
    exact absurd hj (by omega)
  | succ n' ih =>
    intro k0 out h j hj
    simp only [cross_pairs] at h
    split at h
    · rename_i P1 P2 hP1 hP2
      split at h
      · exact absurd h (by simp)
      · rename_i cs hloop
        split at h
        · exact absurd h (by simp)
        · rename_i restl hrest
          simp only [Except.ok.injEq] at h
          subst h
          cases j with
          | zero =>
            refine ⟨P1, P2, cs, by simpa using hP1, by simpa using hP2,
              by simpa using hloop, by simp, by simp⟩
          | succ j' =>
            have hres := ih (k0 + 1) restl hrest j' (by omega)
            obtain ⟨Q1, Q2, cs', hq1, hq2, hl, ho1, ho2⟩ := hres
            have hk : k0 + 1 + j' = k0 + (j' + 1) := by omega
            rw [hk] at hq1 hq2 hl
            refine ⟨Q1, Q2, cs', hq1, hq2, hl, ?_, ?_⟩
            · have : 2 * (j' + 1) = 2 * j' + 1 + 1 := by omega
              rw [this]
              simpa using ho1
            · have : 2 * (j' + 1) + 1 = (2 * j' + 1) + 1 + 1 := by omega
              rw [this]
              simpa using ho2
    · exact absurd h (by simp)

/-! ### C9 -/

/-- C9: for every successful crossover run, every produced pair of
children, and every non-fixed cell index whose single probability draw
strictly exceeds the crossover probability, both children's cells at
that index (position and all attributes) equal the corresponding cells
of their respective parents; and the children's fixed-macro groups equal
their parents' fixed-macro groups whatever the draws.  This holds for
every recombination strategy `sa` (the simple-arithmetic blend being the
one the source selects by name). -/
theorem C9_crossover_untouched_indices (pool : List Plan) (pc : ℚ) (cpts : ℕ)
    (method : String) (alpha : ℚ) (sa : ℚ → Cell → Cell → Cell × Cell)
    (pick : ℕ → ℕ × ℕ) (rnd : ℕ → ℕ → ℚ) (out : List Plan)
    (h : crossover pool pc cpts method alpha sa pick rnd = .ok out) :
    ∀ k, k < pool.length / 2 →
    ∀ P1 P2, pool[(pick k).1]? = some P1 → pool[(pick k).2]? = some P2 →
    ∃ ch1 ch2, out[2 * k]? = some ch1 ∧ out[2 * k + 1]? = some ch2 ∧
      ch1.fixed_macro_cells = P1.fixed_macro_cells ∧
      ch2.fixed_macro_cells = P2.fixed_macro_cells ∧
      ∀ i, pc < rnd k i →
        ch1.non_fixed_cells[i]? = P1.non_fixed_cells[i]? ∧
        ch2.non_fixed_cells[i]? = P2.non_fixed_cells[i]? := by
  intro k hk P1 P2 hP1 hP2
  unfold crossover at h
  obtain ⟨Q1, Q2, cs, hq1, hq2, hloop, ho1, ho2⟩ :=
    cross_pairs_spec sa method alpha pc pick rnd pool (pool.length / 2) 0 out h k hk
  rw [Nat.zero_add] at hq1 hq2 hloop
  rw [hP1] at hq1
  rw [hP2] at hq2
  injection hq1 with hq1
  injection hq2 with hq2
  subst hq1
  subst hq2
  obtain ⟨⟨hf1, hf2⟩, hframe⟩ :=
    cross_loop_frame sa method alpha pc (rnd k) _ (P1, P2) cs hloop
  exact ⟨cs.1, cs.2, ho1, ho2, hf1, hf2, fun i hi => hframe i hi⟩

/-- Witness for C9: a two-plan pool, draw 1 against probability 0 at the
single non-fixed index, evaluated at pair 0. -/
theorem C9_crossover_untouched_indices_witness :
    ∃ ch1 ch2,
      ([c5plan, c5plan] : List Plan)[2 * 0]? = some ch1 ∧
      ([c5plan, c5plan] : List Plan)[2 * 0 + 1]? = some ch2 ∧
      ch1.fixed_macro_cells = c5plan.fixed_macro_cells ∧
      ch2.fixed_macro_cells = c5plan.fixed_macro_cells ∧
      ∀ i, (0 : ℚ) < (fun (_ _ : ℕ) => (1 : ℚ)) 0 i →
        ch1.non_fixed_cells[i]? = c5plan.non_fixed_cells[i]? ∧
        ch2.non_fixed_cells[i]? = c5plan.non_fixed_cells[i]? :=
  C9_crossover_untouched_indices [c5plan, c5plan] 0 0 "simple_arithmetic" 0
    (fun _ a b => (a, b)) (fun _ => (0, 0)) (fun _ _ => 1) [c5plan, c5plan]
    (by decide) 0 (by decide) c5plan c5plan (by decide) (by decide)
